import Mathlib

/-!
Verification of the gta incremental test selection engine.

This file gives a shallow embedding of the core of the gta repository:
the path helpers from path/filepath restricted to the Unix separator,
the DFS graph traversal from graph.go, the change classifier and the
propagation phase of GTA.markedPackages from gta.go, the result assembly
of GTA.ChangedPackages from gta.go, the JSON conversion of the Packages
value, and PackageFromImport together with stripVendor from the loader.

Go maps are modelled as association lists (List (String × β)) with an
update operation that replaces the binding of an existing key in place,
and Go map-backed sets as lists with an insert that appends a missing
element.  Iteration over a Go map is modelled as iteration over the list;
the engine sorts every output, so the arbitrary iteration order of Go
maps is not observable in the final results.  The filesystem and the
package loader are modelled as explicit function-valued parameters.
-/

/-- Go map assignment m[k] = v on an association list: the first binding
of k is replaced, otherwise the binding is appended. -/
def mset {β : Type} (m : List (String × β)) (k : String) (v : β) : List (String × β) :=
  match m with
  | [] => [(k, v)]
  | (k1, v1) :: rest => if k1 = k then (k, v) :: rest else (k1, v1) :: mset rest k v

/-- Go set insert m[k] = struct{}{} on a list of keys. -/
def sinsert (s : List String) (k : String) : List String :=
  if k ∈ s then s else s ++ [k]

theorem lookup_mset_self {β : Type} (m : List (String × β)) (k : String) (v : β) :
    (mset m k v).lookup k = some v := by
  induction m with
  | nil => simp [mset, List.lookup]
  | cons hd tl ih =>
    obtain ⟨k1, v1⟩ := hd
    by_cases h : k1 = k
    · simp [mset, h, List.lookup]
    · simp only [mset, if_neg h, List.lookup]
      have : (k == k1) = false := by
        simp only [beq_eq_false_iff_ne, ne_eq]
        exact fun hh => h hh.symm
      simp [this, ih]

theorem lookup_mset_ne {β : Type} (m : List (String × β)) (k k2 : String) (v : β)
    (h : k2 ≠ k) : (mset m k v).lookup k2 = m.lookup k2 := by
  induction m with
  | nil =>
    simp [mset, List.lookup, (by simpa using h : (k2 == k) = false)]
  | cons hd tl ih =>
    obtain ⟨k1, v1⟩ := hd
    by_cases hk : k1 = k
    · subst hk
      simp [mset, List.lookup, (by simpa using h : (k2 == k1) = false)]
    · simp only [mset, if_neg hk, List.lookup]
      by_cases hb : k1 = k2
      · simp [hb]
      · have : (k2 == k1) = false := by simpa using fun hh => hb hh.symm
        simp [this, ih]

theorem mem_mset {β : Type} {m : List (String × β)} {k : String} {v : β} {p : String × β}
    (h : p ∈ mset m k v) : p ∈ m ∨ p = (k, v) := by
  induction m with
  | nil => simp [mset] at h; exact Or.inr h
  | cons hd tl ih =>
    obtain ⟨k1, v1⟩ := hd
    by_cases hk : k1 = k
    · simp only [mset, if_pos hk] at h
      rcases List.mem_cons.mp h with rfl | hmem
      · exact Or.inr rfl
      · exact Or.inl (List.mem_cons_of_mem _ hmem)
    · simp only [mset, if_neg hk] at h
      rcases List.mem_cons.mp h with rfl | hmem
      · exact Or.inl (List.mem_cons_self _ _)
      · rcases ih hmem with h1 | h1
        · exact Or.inl (List.mem_cons_of_mem _ h1)
        · exact Or.inr h1

theorem mem_mset_of_ne {β : Type} {m : List (String × β)} {k k2 : String} {v v2 : β}
    (hmem : (k2, v2) ∈ m) (hne : k2 ≠ k) : (k2, v2) ∈ mset m k v := by
  induction m with
  | nil => simp at hmem
  | cons hd tl ih =>
    obtain ⟨k1, v1⟩ := hd
    rcases List.mem_cons.mp hmem with heq | hmem1
    · obtain ⟨h1, h2⟩ := Prod.mk.injEq .. ▸ heq
      subst h1; subst h2
      by_cases hk : k2 = k
      · exact absurd hk hne
      · simp [mset, if_neg hk]
    · by_cases hk : k1 = k
      · simp only [mset, if_pos hk]
        exact List.mem_cons_of_mem _ hmem1
      · simp only [mset, if_neg hk]
        exact List.mem_cons_of_mem _ (ih hmem1)

theorem keys_mset_mono {β : Type} {m : List (String × β)} {k a : String} {v : β}
    (h : a ∈ m.map Prod.fst) : a ∈ (mset m k v).map Prod.fst := by
  induction m with
  | nil => simp at h
  | cons hd tl ih =>
    obtain ⟨k1, v1⟩ := hd
    by_cases hk : k1 = k
    · subst hk
      simpa [mset] using h
    · simp only [mset, if_neg hk, List.map_cons]
      rcases List.mem_cons.mp h with h1 | h1
      · exact List.mem_cons.mpr (Or.inl h1)
      · exact List.mem_cons.mpr (Or.inr (ih h1))

theorem mem_keys_mset_self {β : Type} (m : List (String × β)) (k : String) (v : β) :
    k ∈ (mset m k v).map Prod.fst := by
  induction m with
  | nil => simp [mset]
  | cons hd tl ih =>
    obtain ⟨k1, v1⟩ := hd
    by_cases hk : k1 = k
    · simp [mset, hk]
    · simp only [mset, if_neg hk, List.map_cons]
      exact List.mem_cons_of_mem _ ih

theorem mem_sinsert_self (s : List String) (k : String) : k ∈ sinsert s k := by
  unfold sinsert
  by_cases h : k ∈ s
  · simp [h]
  · simp [h]

theorem mem_sinsert_of_mem {s : List String} {k a : String} (h : a ∈ s) :
    a ∈ sinsert s k := by
  unfold sinsert
  by_cases hk : k ∈ s
  · simpa [hk]
  · simp [hk, h]

/-! ## A byte comparator for import paths

Go sorts packages with the built-in string comparison, which is a
lexicographic comparison of the bytes of the two strings.  We model it
as a lexicographic comparison of the character lists of the two Lean
strings (identical on ASCII import paths). -/

def charListLe : List Char → List Char → Bool
  | [], _ => true
  | _ :: _, [] => false
  | a :: as, b :: bs => if a = b then charListLe as bs else decide (a < b)

/-- The Go comparison a.ImportPath < b.ImportPath used by sort.Sort via
byPackageImportPath, taken non-strictly for sortedness statements. -/
def strLe (a b : String) : Bool := charListLe a.data b.data

theorem charListLe_total : ∀ a b : List Char, charListLe a b = true ∨ charListLe b a = true := by
  intro a
  induction a with
  | nil => intro b; exact Or.inl rfl
  | cons x xs ih =>
    intro b
    cases b with
    | nil => exact Or.inr rfl
    | cons y ys =>
      by_cases hxy : x = y
      · subst hxy
        rcases ih ys with h | h
        · exact Or.inl (by simpa [charListLe] using h)
        · exact Or.inr (by simpa [charListLe] using h)
      · rcases lt_or_gt_of_ne hxy with hlt | hgt
        · exact Or.inl (by simp [charListLe, hxy, hlt])
        · refine Or.inr ?_
          have hyx : y ≠ x := fun h => hxy h.symm
          simp [charListLe, hyx]
          exact hgt

theorem charListLe_trans :
    ∀ a b c : List Char, charListLe a b = true → charListLe b c = true →
      charListLe a c = true := by
  intro a
  induction a with
  | nil => intro b c _ _; rfl
  | cons x xs ih =>
    intro b c hab hbc
    cases b with
    | nil => simp [charListLe] at hab
    | cons y ys =>
      cases c with
      | nil => simp [charListLe] at hbc
      | cons z zs =>
        by_cases hxy : x = y
        · subst hxy
          by_cases hyz : x = z
          · subst hyz
            simp only [charListLe, if_pos rfl] at hab hbc ⊢
            exact ih ys zs hab hbc
          · simp only [charListLe, if_pos rfl] at hab
            simp only [charListLe, if_neg hyz] at hbc ⊢
            exact hbc
        · by_cases hyz : y = z
          · subst hyz
            simp only [charListLe, if_neg hxy] at hab ⊢
            exact hab
          · simp only [charListLe, if_neg hxy] at hab
            simp only [charListLe, if_neg hyz] at hbc
            have hxz : x < z := lt_trans (of_decide_eq_true hab) (of_decide_eq_true hbc)
            have hne : x ≠ z := ne_of_lt hxz
            simp [charListLe, hne, hxz]

theorem strLe_total (a b : String) : (strLe a b || strLe b a) = true := by
  rcases charListLe_total a.data b.data with h | h <;> simp [strLe, h]

theorem strLe_trans (a b c : String) (h1 : strLe a b = true) (h2 : strLe b c = true) :
    strLe a c = true :=
  charListLe_trans a.data b.data c.data h1 h2

/-! ## Path manipulation, modelling path/filepath on the Unix separator

splitSegs splits a character list on the separator, joinSegs joins
segments with the separator, cleanSegs is the segment-level core of the
Go Clean algorithm (drop empty and dot segments, resolve dotdot against
a stack of output segments, keeping dotdot segments that escape the
front of a relative path and dropping the ones that would climb above
the root of a rooted path). -/

def splitSegs : List Char → List (List Char)
  | [] => [[]]
  | c :: rest =>
    if c = '/' then [] :: splitSegs rest
    else
      match splitSegs rest with
      | [] => [[c]]
      | s :: ss => (c :: s) :: ss

def joinSegs : List (List Char) → List Char
  | [] => []
  | [s] => s
  | s :: ss => s ++ '/' :: joinSegs ss

def cleanSegs (rooted : Bool) : List (List Char) → List (List Char) → List (List Char)
  | [], out => out.reverse
  | seg :: rest, out =>
    if seg = [] ∨ seg = ['.'] then cleanSegs rooted rest out
    else if seg = ['.', '.'] then
      match out with
      | [] => if rooted then cleanSegs rooted rest [] else cleanSegs rooted rest [['.', '.']]
      | o :: outRest =>
        if o = ['.', '.'] then cleanSegs rooted rest (['.', '.'] :: o :: outRest)
        else cleanSegs rooted rest outRest
    else cleanSegs rooted rest (seg :: out)

/-- Clean of path/filepath on a character list (Unix separator). -/
def cleanList (l : List Char) : List Char :=
  if l = [] then ['.']
  else
    let rooted : Bool := decide (l.head? = some '/')
    let out := joinSegs (cleanSegs rooted (splitSegs l) [])
    if rooted then (if out = [] then ['/'] else '/' :: out)
    else (if out = [] then ['.'] else out)

/-- The portion of a path up to and including its final separator, the
part that filepath.Dir hands to Clean. -/
def dirPart (l : List Char) : List Char :=
  (l.reverse.dropWhile (fun c => c != '/')).reverse

def dirList (l : List Char) : List Char := cleanList (dirPart l)

/-- Base of path/filepath on a character list (Unix separator). -/
def baseList (l : List Char) : List Char :=
  if l = [] then ['.']
  else
    let l2 := (l.reverse.dropWhile (fun c => c = '/')).reverse
    if l2 = [] then ['/']
    else (l2.reverse.takeWhile (fun c => c != '/')).reverse

/-- Ext of path/filepath on a character list: the suffix starting at the
final dot in the final element of the path, empty when there is none. -/
def extList (l : List Char) : List Char :=
  let r := l.reverse.takeWhile (fun c => c != '/')
  if '.' ∈ r then ((r.takeWhile (fun c => c != '.')) ++ ['.']).reverse else []

def filepathDir (s : String) : String := String.mk (dirList s.data)

def filepathBase (s : String) : String := String.mk (baseList s.data)

def filepathExt (s : String) : String := String.mk (extList s.data)

def cleanPath (s : String) : String := String.mk (cleanList s.data)

/-- Join of two path elements, as in path.Join and filepath.Join on
Unix: empty elements are skipped, the rest are joined with the
separator and the result is cleaned. -/
def pathJoin (a b : String) : String :=
  if a = "" then (if b = "" then "" else cleanPath b)
  else cleanPath (a ++ "/" ++ b)

/-! ### Length bounds for Clean and Dir

These bounds justify the termination of the recursions that walk a path
upwards through filepath.Dir (isIgnoredByGo, isTestData,
deepestUnignoredDir and findImportPath). -/

/-- Total size of a segment list, counting one separator per segment. -/
def segsLen : List (List Char) → Nat
  | [] => 0
  | s :: ss => s.length + 1 + segsLen ss

theorem segsLen_append (a b : List (List Char)) :
    segsLen (a ++ b) = segsLen a + segsLen b := by
  induction a with
  | nil => simp [segsLen]
  | cons s ss ih => simp [segsLen, ih]; omega

theorem segsLen_reverse (a : List (List Char)) : segsLen a.reverse = segsLen a := by
  induction a with
  | nil => rfl
  | cons s ss ih => simp [List.reverse_cons, segsLen_append, segsLen, ih]; omega

theorem splitSegs_cons_slash (rest : List Char) :
    splitSegs ('/' :: rest) = [] :: splitSegs rest := by
  simp [splitSegs]

theorem splitSegs_cons_ne (c : Char) (rest : List Char) (hc : c ≠ '/') :
    splitSegs (c :: rest) =
      match splitSegs rest with
      | [] => [[c]]
      | s :: ss => (c :: s) :: ss := by
  simp [splitSegs, hc]

theorem cleanSegs_cons (rooted : Bool) (seg : List Char) (rest out : List (List Char)) :
    cleanSegs rooted (seg :: rest) out =
      if seg = [] ∨ seg = ['.'] then cleanSegs rooted rest out
      else if seg = ['.', '.'] then
        match out with
        | [] => if rooted then cleanSegs rooted rest [] else cleanSegs rooted rest [['.', '.']]
        | o :: outRest =>
          if o = ['.', '.'] then cleanSegs rooted rest (['.', '.'] :: o :: outRest)
          else cleanSegs rooted rest outRest
      else cleanSegs rooted rest (seg :: out) := rfl

theorem splitSegs_ne_nil (l : List Char) : splitSegs l ≠ [] := by
  cases l with
  | nil => simp [splitSegs]
  | cons c rest =>
    by_cases hc : c = '/'
    · simp [splitSegs, hc]
    · simp only [splitSegs, if_neg hc]
      cases h : splitSegs rest <;> simp

theorem segsLen_splitSegs (l : List Char) : segsLen (splitSegs l) = l.length + 1 := by
  induction l with
  | nil => simp [splitSegs, segsLen]
  | cons c rest ih =>
    by_cases hc : c = '/'
    · simp [splitSegs, hc, segsLen, ih]; omega
    · simp only [splitSegs, if_neg hc]
      cases h : splitSegs rest with
      | nil => exact absurd h (splitSegs_ne_nil rest)
      | cons s ss =>
        rw [h] at ih
        simp only [segsLen, List.length_cons] at ih ⊢
        omega

theorem joinSegs_length (ss : List (List Char)) (h : ss ≠ []) :
    (joinSegs ss).length + 1 = segsLen ss := by
  induction ss with
  | nil => exact absurd rfl h
  | cons s rest ih =>
    cases rest with
    | nil => simp [joinSegs, segsLen]
    | cons s2 rest2 =>
      have ih2 := ih (by simp)
      simp only [joinSegs, segsLen, List.length_append, List.length_cons] at ih2 ⊢
      omega

theorem cleanSegs_segsLen (rooted : Bool) :
    ∀ (segs out : List (List Char)),
      segsLen (cleanSegs rooted segs out) ≤ segsLen out + segsLen segs := by
  intro segs
  induction segs with
  | nil =>
    intro out
    simp [cleanSegs, segsLen_reverse, segsLen]
  | cons seg rest ih =>
    intro out
    rw [cleanSegs_cons]
    by_cases h1 : seg = [] ∨ seg = ['.']
    · rw [if_pos h1]
      have := ih out
      simp only [segsLen]
      omega
    · rw [if_neg h1]
      by_cases h2 : seg = ['.', '.']
      · rw [if_pos h2]
        subst h2
        cases out with
        | nil =>
          cases rooted with
          | true =>
            have := ih ([] : List (List Char))
            simp only [if_true, segsLen, List.length_cons, List.length_nil] at this ⊢
            omega
          | false =>
            have := ih [['.', '.']]
            simp only [Bool.false_eq_true, if_false, segsLen, List.length_cons,
              List.length_nil] at this ⊢
            omega
        | cons o outRest =>
          dsimp only
          by_cases ho : o = ['.', '.']
          · rw [if_pos ho]
            have := ih (['.', '.'] :: o :: outRest)
            simp only [segsLen, List.length_cons, List.length_nil] at this ⊢
            omega
          · rw [if_neg ho]
            have := ih outRest
            simp only [segsLen, List.length_cons, List.length_nil] at this ⊢
            omega
      · rw [if_neg h2]
        have := ih (seg :: out)
        simp only [segsLen] at this ⊢
        omega

theorem cleanList_length_le (l : List Char) (h : l ≠ []) :
    (cleanList l).length ≤ l.length := by
  have hlen : 1 ≤ l.length := by
    cases l with
    | nil => exact absurd rfl h
    | cons c rest => simp
  unfold cleanList
  rw [if_neg h]
  by_cases hroot : l.head? = some '/'
  · obtain ⟨rest, rfl⟩ : ∃ rest, l = '/' :: rest := by
      cases l with
      | nil => exact absurd rfl h
      | cons c cs =>
        simp only [List.head?_cons, Option.some.injEq] at hroot
        exact ⟨cs, by rw [hroot]⟩
    have hdec : decide (('/' :: rest).head? = some '/') = true := by simp
    rw [hdec]
    have hsplit : splitSegs ('/' :: rest) = [] :: splitSegs rest := splitSegs_cons_slash rest
    have hskip : cleanSegs true ([] :: splitSegs rest) [] = cleanSegs true (splitSegs rest) [] := by
      rw [cleanSegs_cons, if_pos (Or.inl rfl)]
    rw [if_pos rfl, hsplit, hskip]
    by_cases hnil : joinSegs (cleanSegs true (splitSegs rest) []) = []
    · rw [if_pos hnil]
      have h1 : (['/'] : List Char).length = 1 := rfl
      rw [h1]
      exact hlen
    · rw [if_neg hnil]
      have h1 : segsLen (cleanSegs true (splitSegs rest) []) ≤ segsLen (splitSegs rest) := by
        have := cleanSegs_segsLen true (splitSegs rest) []
        simpa [segsLen] using this
      have h2 : segsLen (splitSegs rest) = rest.length + 1 := segsLen_splitSegs rest
      have h3 : cleanSegs true (splitSegs rest) [] ≠ [] := by
        intro hc
        rw [hc] at hnil
        exact hnil rfl
      have h4 := joinSegs_length _ h3
      simp only [List.length_cons]
      omega
  · have hdec : decide (l.head? = some '/') = false := by simpa using hroot
    rw [hdec, if_neg (by simp)]
    by_cases hnil : joinSegs (cleanSegs false (splitSegs l) []) = []
    · rw [if_pos hnil]
      simpa using hlen
    · rw [if_neg hnil]
      have h1 : segsLen (cleanSegs false (splitSegs l) []) ≤ segsLen (splitSegs l) := by
        have := cleanSegs_segsLen false (splitSegs l) []
        simpa [segsLen] using this
      have h2 : segsLen (splitSegs l) = l.length + 1 := segsLen_splitSegs l
      have h3 : cleanSegs false (splitSegs l) [] ≠ [] := by
        intro hc
        rw [hc] at hnil
        exact hnil rfl
      have h4 := joinSegs_length _ h3
      omega

theorem splitSegs_append_slash (q : List Char) :
    splitSegs (q ++ ['/']) = splitSegs q ++ [[]] := by
  induction q with
  | nil => simp [splitSegs]
  | cons c rest ih =>
    by_cases hc : c = '/'
    · subst hc
      rw [List.cons_append, splitSegs_cons_slash, splitSegs_cons_slash, ih]
      rfl
    · rw [List.cons_append, splitSegs_cons_ne c _ hc, splitSegs_cons_ne c rest hc, ih]
      cases h : splitSegs rest with
      | nil => exact absurd h (splitSegs_ne_nil rest)
      | cons s ss => simp

theorem cleanSegs_append_empty (rooted : Bool) :
    ∀ (segs out : List (List Char)),
      cleanSegs rooted (segs ++ [[]]) out = cleanSegs rooted segs out := by
  intro segs
  induction segs with
  | nil =>
    intro out
    simp [cleanSegs]
  | cons seg rest ih =>
    intro out
    rw [List.cons_append, cleanSegs_cons, cleanSegs_cons]
    by_cases h1 : seg = [] ∨ seg = ['.']
    · rw [if_pos h1, if_pos h1, ih]
    · rw [if_neg h1, if_neg h1]
      by_cases h2 : seg = ['.', '.']
      · rw [if_pos h2, if_pos h2]
        cases out with
        | nil =>
          cases rooted with
          | true => simp only [if_true, ih]
          | false => simp only [Bool.false_eq_true, if_false, ih]
        | cons o outRest =>
          dsimp only
          by_cases ho : o = ['.', '.']
          · rw [if_pos ho, if_pos ho, ih]
          · rw [if_neg ho, if_neg ho, ih]
      · rw [if_neg h2, if_neg h2, ih]

theorem cleanList_append_slash (q : List Char) (h : q ≠ []) :
    cleanList (q ++ ['/']) = cleanList q := by
  have hq : q ++ ['/'] ≠ [] := by simp
  unfold cleanList
  rw [if_neg hq, if_neg h]
  have hhead : (q ++ ['/']).head? = q.head? := by
    cases q with
    | nil => exact absurd rfl h
    | cons c rest => simp
  rw [hhead, splitSegs_append_slash]
  simp only [cleanSegs_append_empty]

theorem dropWhile_head_not (p : Char → Bool) :
    ∀ (l : List Char) {c : Char} {w : List Char}, l.dropWhile p = c :: w → p c = false := by
  intro l
  induction l with
  | nil => intro c w hcw; simp [List.dropWhile] at hcw
  | cons a rest ih =>
    intro c w hcw
    by_cases ha : p a = true
    · rw [List.dropWhile_cons_of_pos ha] at hcw
      exact ih hcw
    · rw [List.dropWhile_cons_of_neg ha] at hcw
      obtain ⟨h1, h2⟩ := List.cons.injEq .. ▸ hcw
      rw [← h1]
      exact Bool.not_eq_true _ ▸ ha

theorem dirPart_split (l : List Char) (hsl : '/' ∈ l) :
    ∃ q v, l = (q ++ ['/']) ++ v ∧ dirPart l = q ++ ['/'] ∧ '/' ∉ v := by
  have hdne : l.reverse.dropWhile (fun c => c != '/') ≠ [] := by
    intro hnil
    have hall := List.dropWhile_eq_nil_iff.mp hnil
    have := hall '/' (List.mem_reverse.mpr hsl)
    simp at this
  obtain ⟨c, w, hcw⟩ : ∃ c w, l.reverse.dropWhile (fun c => c != '/') = c :: w := by
    cases hd : l.reverse.dropWhile (fun c => c != '/') with
    | nil => exact absurd hd hdne
    | cons c w => exact ⟨c, w, rfl⟩
  have hc : c = '/' := by
    have := dropWhile_head_not _ _ hcw
    simpa using this
  subst hc
  have h0 : l = (l.reverse.dropWhile (fun c => c != '/')).reverse ++
      (l.reverse.takeWhile (fun c => c != '/')).reverse := by
    rw [← List.reverse_append, List.takeWhile_append_dropWhile, List.reverse_reverse]
  refine ⟨w.reverse, (l.reverse.takeWhile (fun c => c != '/')).reverse, ?_, ?_, ?_⟩
  · conv_lhs => rw [h0]
    rw [hcw]
    simp
  · unfold dirPart
    rw [hcw]
    simp
  · intro hmem
    have hmem2 : '/' ∈ l.reverse.takeWhile (fun c => c != '/') := List.mem_reverse.mp hmem
    have := List.mem_takeWhile_imp hmem2
    simp at this

theorem dirPart_no_slash (l : List Char) (h : '/' ∉ l) : dirPart l = [] := by
  unfold dirPart
  have : l.reverse.dropWhile (fun c => c != '/') = [] := by
    rw [List.dropWhile_eq_nil_iff]
    intro x hx
    have : x ∈ l := List.mem_reverse.mp hx
    simp only [bne_iff_ne, ne_eq]
    intro hc
    exact h (hc ▸ this)
  rw [this]
  rfl

theorem dirList_no_slash (l : List Char) (h : '/' ∉ l) : dirList l = ['.'] := by
  unfold dirList
  rw [dirPart_no_slash l h]
  rfl

theorem dirList_length_lt (l : List Char) (hsl : '/' ∈ l) (hne : l ≠ ['/']) :
    (dirList l).length < l.length := by
  obtain ⟨q, v, hl, hdp, hv⟩ := dirPart_split l hsl
  by_cases hq : q = []
  · subst hq
    have hdl : dirList l = ['/'] := by
      unfold dirList
      rw [hdp]
      rfl
    have hvne : v ≠ [] := by
      intro hc
      rw [hc] at hl
      simp at hl
      exact hne hl
    rw [hdl, hl]
    have : 1 ≤ v.length := by
      cases v with
      | nil => exact absurd rfl hvne
      | cons a b => simp
    simp only [List.length_append, List.length_cons, List.length_nil]
    omega
  · have hdl : dirList l = cleanList q := by
      unfold dirList
      rw [hdp]
      exact cleanList_append_slash q hq
    have hle : (cleanList q).length ≤ q.length := cleanList_length_le q hq
    rw [hdl, hl]
    simp only [List.length_append, List.length_cons, List.length_nil]
    omega

theorem baseList_no_slash (l : List Char) (hsl : '/' ∉ l) (hne : l ≠ []) :
    baseList l = l := by
  unfold baseList
  rw [if_neg hne]
  have hdrop : l.reverse.dropWhile (fun c => c = '/') = l.reverse := by
    cases hrev : l.reverse with
    | nil =>
      simp
    | cons c w =>
      have hc : c ∈ l := by
        have : c ∈ l.reverse := by rw [hrev]; exact List.mem_cons_self _ _
        exact List.mem_reverse.mp this
      have hcs : ¬ (c = '/') := fun hh => hsl (hh ▸ hc)
      rw [List.dropWhile_cons_of_neg (by simpa using hcs)]
  rw [hdrop, List.reverse_reverse]
  rw [if_neg hne]
  have htake : l.reverse.takeWhile (fun c => c != '/') = l.reverse := by
    rw [List.takeWhile_eq_self_iff]
    intro x hx
    have : x ∈ l := List.mem_reverse.mp hx
    simp only [bne_iff_ne, ne_eq]
    intro hc
    exact hsl (hc ▸ this)
  rw [htake, List.reverse_reverse]

/-- Measure for the recursions walking upwards through filepath.Dir. -/
def pathMeasure (s : String) : Nat :=
  if s = "." then 0 else s.length + 2

theorem string_length_data (s : String) : s.length = s.data.length := rfl

theorem filepathDir_eq_dot_iff (s : String) : filepathDir s = "." ↔ dirList s.data = ['.'] := by
  constructor
  · intro h
    have : (filepathDir s).data = ".".data := by rw [h]
    simpa [filepathDir] using this
  · intro h
    unfold filepathDir
    rw [h]

theorem pathMeasure_dir_lt (s : String) (hdir : filepathDir s ≠ ".") (hroot : s ≠ "/") :
    pathMeasure (filepathDir s) < pathMeasure s := by
  have hsl : '/' ∈ s.data := by
    by_contra hns
    exact hdir (filepathDir_eq_dot_iff s |>.mpr (dirList_no_slash s.data hns))
  have hne : s.data ≠ ['/'] := by
    intro hc
    apply hroot
    cases s with
    | mk data =>
      simp only at hc
      subst hc
      rfl
  have hlt := dirList_length_lt s.data hsl hne
  have hsdot : s ≠ "." := by
    intro hc
    exact (by decide : ¬ ('/' ∈ ".".data)) (hc ▸ hsl)
  unfold pathMeasure
  rw [if_neg hdir, if_neg hsdot]
  have h1 : (filepathDir s).length = (dirList s.data).length := rfl
  have h2 : s.length = s.data.length := rfl
  omega

theorem pathMeasure_dot_lt (s : String) (hsdot : s ≠ ".") : pathMeasure "." < pathMeasure s := by
  unfold pathMeasure
  rw [if_pos rfl, if_neg hsdot]
  omega

/-! ## Data model of the engine

Package and Directory mirror the structs of the source; the Packager
interface and the filesystem are modelled as function-valued records.
PackageFromDir in the source returns both a package value and an error;
the error cases distinguished by the classifier are build.NoGoError,
scanner.ErrorList and everything else. -/

structure Package where
  importPath : String
  dir : String
deriving DecidableEq, Repr

/-- Directory from differ.go: whether the directory still exists, and
the base names of the changed files inside it. -/
structure Directory where
  dirExists : Bool
  files : List String
deriving DecidableEq, Repr

/-- Graph from graph.go: an adjacency representation keyed by import
path.  The inner Go map carries only true values and Traverse ranges
over its keys, so the successor set is modelled as a key list. -/
structure Graph where
  graph : List (String × List String)
deriving DecidableEq, Repr

inductive PkgDirError where
  | noGoError
  | scannerErrorList
  | otherError
deriving DecidableEq, Repr

structure Packager where
  packageFromDir : String → Package × Option PkgDirError
  packageFromEmptyDir : String → Package × Option PkgDirError
  packageFromImport : String → Except String Package
  dependentGraph : Except String Graph
  embeddedBy : String → List String

/-- The fields of a GTA value that the classifier consults, together
with the filesystem existence check used by findImportPath. -/
structure GTAEnv where
  packager : Packager
  roots : List String
  prefixes : List String
  fsExists : String → Bool

/-! ## Graph.Traverse from graph.go

Reachability in the adjacency list, by zero or more edge steps. -/

inductive Reachable (g : List (String × List String)) : String → String → Prop where
  | refl (x : String) : Reachable g x x
  | step {x y z : String} {es : List String} :
      g.lookup x = some es → y ∈ es → Reachable g y z → Reachable g x z

/-- Number of graph keys not yet marked: the termination measure of the
depth first traversal. -/
def missing (g : List (String × List String)) (mark : List String) : Nat :=
  (g.map Prod.fst).countP (fun k => decide (k ∉ mark))

theorem countP_lt_of_mem {α : Type} {p q : α → Bool} {a : α} {l : List α}
    (hmem : a ∈ l) (hp : p a = false) (hq : q a = true)
    (hmono : ∀ x ∈ l, p x = true → q x = true) : l.countP p < l.countP q := by
  induction l with
  | nil => simp at hmem
  | cons b t ih =>
    rw [List.countP_cons, List.countP_cons]
    rcases List.mem_cons.mp hmem with rfl | hmem2
    · rw [hp, hq]
      have hle : t.countP p ≤ t.countP q :=
        List.countP_mono_left (fun x hx => hmono x (List.mem_cons_of_mem _ hx))
      simp only [Bool.false_eq_true, if_false, if_true]
      omega
    · have hmono2 : ∀ x ∈ t, p x = true → q x = true :=
        fun x hx => hmono x (List.mem_cons_of_mem _ hx)
      have hlt := ih hmem2 hmono2
      by_cases hpb : p b = true
      · rw [hpb, hmono b (List.mem_cons_self _ _) hpb]
        simp only [if_true]
        omega
      · rw [Bool.not_eq_true] at hpb
        rw [hpb]
        cases hqb : q b <;> simp <;> omega

theorem missing_le_of_sub {g : List (String × List String)} {m m2 : List String}
    (h : ∀ x ∈ m, x ∈ m2) : missing g m2 ≤ missing g m := by
  apply List.countP_mono_left
  intro a _ ha
  simp only [decide_eq_true_eq] at *
  exact fun ham => ha (h a ham)

theorem missing_lt_insert {g : List (String × List String)} {m : List String} {node : String}
    (hkey : node ∈ g.map Prod.fst) (hnm : node ∉ m) :
    missing g (node :: m) < missing g m := by
  apply countP_lt_of_mem hkey
  · simp
  · simp [hnm]
  · intro x _ hx
    simp only [decide_eq_true_eq] at *
    exact fun hxm => hx (List.mem_cons_of_mem _ hxm)

theorem lookup_some_mem_keys {β : Type} {g : List (String × β)} {k : String} {v : β}
    (h : g.lookup k = some v) : k ∈ g.map Prod.fst := by
  induction g with
  | nil => simp [List.lookup] at h
  | cons hd tl ih =>
    obtain ⟨k1, v1⟩ := hd
    by_cases hk : k = k1
    · subst hk
      exact List.mem_cons_self _ _
    · simp only [List.lookup, (by simpa using hk : (k == k1) = false)] at h
      exact List.mem_cons_of_mem _ (ih h)

theorem lex_le_lt {a a2 b b2 : Nat} (h1 : a ≤ a2) (h2 : b < b2) :
    Prod.Lex (· < ·) (· < ·) (a, b) (a2, b2) := by
  rcases lt_or_eq_of_le h1 with h | h
  · exact Prod.Lex.left _ _ h
  · subst h
    exact Prod.Lex.right _ h2

/-- The invariant carried by the traversal of a single node: the mark
set only grows, the visited node is marked, every node freshly marked
has all of its successors marked, and every freshly marked node is
reachable from the visited node. -/
def TraverseInv (g : List (String × List String)) (node : String)
    (mark out : List String) : Prop :=
  (∀ x ∈ mark, x ∈ out) ∧ node ∈ out ∧
  (∀ x ∈ out, x ∉ mark → ∀ es, g.lookup x = some es → ∀ e ∈ es, e ∈ out) ∧
  (∀ x ∈ out, x ∈ mark ∨ Reachable g node x)

/-- The invariant of the loop over the successor list of a node. -/
def TraverseEdgesInv (g : List (String × List String)) (edges : List String)
    (mark out : List String) : Prop :=
  (∀ x ∈ mark, x ∈ out) ∧ (∀ e ∈ edges, e ∈ out) ∧
  (∀ x ∈ out, x ∉ mark → ∀ es, g.lookup x = some es → ∀ e ∈ es, e ∈ out) ∧
  (∀ x ∈ out, x ∈ mark ∨ ∃ e ∈ edges, Reachable g e x)

mutual
/-- The body of Graph.Traverse from graph.go: return if the node is
marked, otherwise mark it and recurse into each successor.  The value
component is the translation of the Go code (with the mark map, whose
values are always true, represented by its key list); the subtype
carries the invariants needed for termination and correctness. -/
def traverseNode (g : List (String × List String)) (node : String) (mark : List String) :
    { out : List String // TraverseInv g node mark out } :=
  if hmem : node ∈ mark then
    ⟨mark, by
      refine ⟨fun x h => h, hmem, ?_, ?_⟩
      · intro x hx hnx
        exact absurd hx hnx
      · intro x hx
        exact Or.inl hx⟩
  else
    match hl : g.lookup node with
    | none =>
      ⟨node :: mark, by
        refine ⟨fun x h => List.mem_cons_of_mem _ h, List.mem_cons_self _ _, ?_, ?_⟩
        · intro x hx hnx es hes
          rcases List.mem_cons.mp hx with rfl | hxm
          · rw [hl] at hes
            exact Option.noConfusion hes
          · exact absurd hxm hnx
        · intro x hx
          rcases List.mem_cons.mp hx with rfl | hxm
          · exact Or.inr (Reachable.refl x)
          · exact Or.inl hxm⟩
    | some edges =>
      let r := traverseEdges g edges (node :: mark)
      ⟨r.val, by
        obtain ⟨rmono, redges, rfc, rsound⟩ := r.property
        refine ⟨?_, ?_, ?_, ?_⟩
        · intro x hx
          exact rmono x (List.mem_cons_of_mem _ hx)
        · exact rmono node (List.mem_cons_self _ _)
        · intro x hx hnx es hes
          by_cases hxn : x = node
          · subst hxn
            have hedges : edges = es := Option.some.inj (hl.symm.trans hes)
            subst hedges
            exact redges
          · refine rfc x hx ?_ es hes
            intro hc
            rcases List.mem_cons.mp hc with h1 | h1
            · exact hxn h1
            · exact hnx h1
        · intro x hx
          rcases rsound x hx with hxm | ⟨e, he, hre⟩
          · rcases List.mem_cons.mp hxm with rfl | h2
            · exact Or.inr (Reachable.refl x)
            · exact Or.inl h2
          · exact Or.inr (Reachable.step hl he hre)⟩
termination_by (missing g mark, 0)
decreasing_by
  all_goals
    apply Prod.Lex.left
    apply missing_lt_insert
    · exact lookup_some_mem_keys (by assumption)
    · assumption

/-- The loop for each edge of the visited node. -/
def traverseEdges (g : List (String × List String)) (edges : List String)
    (mark : List String) :
    { out : List String // TraverseEdgesInv g edges mark out } :=
  match edges with
  | [] =>
    ⟨mark, by
      refine ⟨fun x h => h, ?_, ?_, ?_⟩
      · intro e he
        exact absurd he (List.not_mem_nil e)
      · intro x hx hnx
        exact absurd hx hnx
      · intro x hx
        exact Or.inl hx⟩
  | e :: rest =>
    let r1 := traverseNode g e mark
    let r2 := traverseEdges g rest r1.val
    ⟨r2.val, by
      obtain ⟨m1, hn1, fc1, s1⟩ := r1.property
      obtain ⟨m2, e2, fc2, s2⟩ := r2.property
      refine ⟨?_, ?_, ?_, ?_⟩
      · intro x hx
        exact m2 x (m1 x hx)
      · intro x hx
        rcases List.mem_cons.mp hx with rfl | hxr
        · exact m2 x hn1
        · exact e2 x hxr
      · intro x hx hnx es hes
        by_cases hx1 : x ∈ r1.val
        · exact fun e1 he1 => m2 e1 (fc1 x hx1 hnx es hes e1 he1)
        · exact fc2 x hx hx1 es hes
      · intro x hx
        rcases s2 x hx with hx1 | ⟨e1, he1, hre⟩
        · rcases s1 x hx1 with hxm | hre
          · exact Or.inl hxm
          · exact Or.inr ⟨e, List.mem_cons_self _ _, hre⟩
        · exact Or.inr ⟨e1, List.mem_cons_of_mem _ he1, hre⟩⟩
termination_by (missing g mark, edges.length + 1)
decreasing_by
  all_goals
    first
    | exact Prod.Lex.right _ (Nat.zero_lt_succ _)
    | exact lex_le_lt (missing_le_of_sub r1.property.1) (Nat.lt_succ_self _)
end

/-- Graph.Traverse from graph.go: the resulting key list of the mark
map after the depth first traversal. -/
def Graph.Traverse (g : Graph) (node : String) (mark : List String) : List String :=
  (traverseNode g.graph node mark).val

/-! ## Helpers from gta.go -/

/-- hasGoFile from gta.go. -/
def hasGoFile (files : List String) : Bool :=
  files.any (fun fn => filepathExt fn = ".go")

/-- strings.HasPrefix from the Go standard library. -/
def goHasPre (s p : String) : Bool := p.data.isPrefixOf s.data

/-- hasPrefixIn from gta.go: true for an empty filter list, otherwise
true when some configured element is a leading piece of s. -/
def hasPrefixIn (s : String) (prefixes : List String) : Bool :=
  if prefixes.length = 0 then true
  else prefixes.any (fun p => goHasPre s p)

/-- hasOnlyTestFilenames from gta.go. -/
def hasOnlyTestFilenames (sl : List String) : Bool :=
  sl.all (fun v => "_test.go".data.isSuffixOf v.data)

theorem pathMeasure_parent_lt (abs : String) (hbase : filepathBase abs ≠ abs) :
    pathMeasure (filepathDir abs) < pathMeasure abs := by
  by_cases hsl : '/' ∈ abs.data
  · have habs : abs ≠ "/" := by
      intro hc
      subst hc
      exact hbase (by decide)
    by_cases hdir : filepathDir abs = "."
    · rw [hdir]
      apply pathMeasure_dot_lt
      intro hc
      subst hc
      exact (by decide : ¬ ('/' ∈ ".".data)) hsl
    · exact pathMeasure_dir_lt abs hdir habs
  · by_cases hempty : abs = ""
    · subst hempty
      decide
    · exfalso
      apply hbase
      have hdata : abs.data ≠ [] := by
        intro hc
        apply hempty
        cases abs with
        | mk d =>
          simp only at hc
          subst hc
          rfl
      have hb := baseList_no_slash abs.data hsl hdata
      unfold filepathBase
      rw [hb]

theorem pathMeasure_ignored_rec_lt (name : String)
    (hb : ¬ (filepathBase name).data.head? = some '/')
    (hdir : filepathDir name ≠ ".") :
    pathMeasure (filepathDir name) < pathMeasure name := by
  have hroot : name ≠ "/" := by
    intro hc
    subst hc
    exact hb (by decide)
  exact pathMeasure_dir_lt name hdir hroot

/-- isIgnoredByGo from gta.go: whether the go tool ignores the
directory, walking upwards through filepath.Dir until a workspace root,
a separator base or a relative top is reached. -/
def isIgnoredByGo (name : String) (roots : List String) : Bool :=
  if name ∈ roots then false
  else if hb : (filepathBase name).data.head? = some '/' then false
  else if filepathBase name = "" ∨ (filepathBase name).data.head? = some '.' ∨
      (filepathBase name).data.head? = some '_' ∨ filepathBase name = "testdata" then true
  else if hdir : filepathDir name = "." then false
  else isIgnoredByGo (filepathDir name) roots
termination_by pathMeasure name
decreasing_by
  all_goals
    exact pathMeasure_ignored_rec_lt name (by assumption) (by assumption)

/-- isTestData from gta.go: whether some path element equals testdata,
walking upwards through filepath.Dir. -/
def isTestData (name : String) : Bool :=
  if hb : (filepathBase name).data.head? = some '/' then false
  else if name = "testdata" ∨ filepathBase name = "testdata" then true
  else if hdir : filepathDir name = "." then false
  else isTestData (filepathDir name)
termination_by pathMeasure name
decreasing_by
  all_goals
    exact pathMeasure_ignored_rec_lt name (by assumption) (by assumption)

/-- deepestUnignoredDir from gta.go. -/
def deepestUnignoredDir (name : String) (roots : List String) : String :=
  if h0 : name = "." ∨ name = "/" then name
  else if isIgnoredByGo name roots then deepestUnignoredDir (filepathDir name) roots
  else name
termination_by pathMeasure name
decreasing_by
  all_goals
    push_neg at h0
    by_cases hdir : filepathDir name = "."
    · rw [hdir]
      exact pathMeasure_dot_lt name h0.1
    · exact pathMeasure_dir_lt name hdir h0.2

/-- findImportPath from gta.go: walk the directory upwards to find
an import path for a (possibly deleted) directory, joining the walked
base names back onto the found path.  The only error value of the Go
function is errImportPathNotFound, so the error is a Boolean flag. -/
def findImportPath (env : GTAEnv) (abs : String) : String × Bool :=
  if hb : filepathBase abs = abs then ("", false)
  else if env.fsExists abs = false then
    let r := findImportPath env (filepathDir abs)
    (pathJoin r.1 (filepathBase abs), r.2)
  else
    match env.packager.packageFromDir abs with
    | (pkg, none) => (pkg.importPath, true)
    | (_, some e) =>
      if e = PkgDirError.noGoError then
        match env.packager.packageFromEmptyDir abs with
        | (pkg2, none) => (pkg2.importPath, true)
        | (_, some _) =>
          let r := findImportPath env (filepathDir abs)
          (pathJoin r.1 (filepathBase abs), r.2)
      else
        let r := findImportPath env (filepathDir abs)
        (pathJoin r.1 (filepathBase abs), r.2)
termination_by pathMeasure abs
decreasing_by
  all_goals
    exact pathMeasure_parent_lt abs (by assumption)

/-! ## The classifier of GTA.markedPackages from gta.go -/

/-- The state built by the directory loop of markedPackages: the
changed map (import path to deleted flag) and the three auxiliary
sets. -/
structure ClassifyState where
  changed : List (String × Bool)
  embeddedChanged : List String
  onlyTestsAffected : List String
  onlyTestPackagesChanged : List String
deriving DecidableEq, Repr

/-- The embed file phase at the top of the directory loop of
markedPackages: every package embedding a changed file of the directory
is recorded in embeddedChanged and marked changed with deleted =
false. -/
def embedPhase (env : GTAEnv) (abs : String) (files : List String) (st : ClassifyState) :
    ClassifyState :=
  files.foldl
    (fun st1 f =>
      (env.packager.embeddedBy (pathJoin abs f)).foldl
        (fun st2 importPath =>
          { st2 with
            embeddedChanged := sinsert st2.embeddedChanged importPath
            changed := mset st2.changed importPath false })
        st1)
    st

/-- The resolution phase of the directory loop of markedPackages: the
deleted directory shortcut, the PackageFromDir call with its error
handling, and the shouldMark assignment. -/
def resolvePhase (env : GTAEnv) (st : ClassifyState) (abs : String) (dir : Directory) :
    Except String ClassifyState :=
  if dir.dirExists = false ∧ hasGoFile dir.files = false then .ok st
  else
    match env.packager.packageFromDir abs with
    | (pkg, none) =>
      let st1 :=
        if abs ∈ st.onlyTestsAffected then
          { st with onlyTestPackagesChanged := sinsert st.onlyTestPackagesChanged pkg.importPath }
        else st
      let shouldMark := hasGoFile dir.files || decide (abs ∈ st.onlyTestsAffected) ||
        decide (pkg.importPath ∈ st1.onlyTestPackagesChanged)
      .ok (if shouldMark then { st1 with changed := mset st1.changed pkg.importPath false } else st1)
    | (_, some PkgDirError.noGoError) =>
      if hasGoFile dir.files then
        match findImportPath env abs with
        | (_, false) => .ok st
        | (importPath, true) =>
          let st1 := { st with changed := mset st.changed importPath true }
          .ok (if abs ∈ st1.onlyTestsAffected then
              { st1 with
                onlyTestPackagesChanged := sinsert st1.onlyTestPackagesChanged importPath }
            else st1)
      else .ok st
    | (_, some PkgDirError.scannerErrorList) => .ok st
    | (_, some PkgDirError.otherError) =>
      if dir.dirExists = false ∧ hasGoFile dir.files then
        match findImportPath env abs with
        | (_, false) => .ok st
        | (importPath, true) =>
          let st1 := { st with changed := mset st.changed importPath true }
          .ok (if abs ∈ st1.onlyTestsAffected then
              { st1 with
                onlyTestPackagesChanged := sinsert st1.onlyTestPackagesChanged importPath }
            else st1)
      else .error ("pulling package information for " ++ abs)

/-- One iteration of the directory loop of markedPackages: embed file
contributions, the ignored directory handling with the testdata
ancestor reassignment, the test only detection, then the resolution
phase on the (possibly reassigned) directory. -/
def processDir (env : GTAEnv) (dirs : List (String × Directory)) (st : ClassifyState)
    (abs : String) (dir : Directory) : Except String ClassifyState :=
  let st1 := embedPhase env abs dir.files st
  if isIgnoredByGo abs env.roots then
    if isTestData abs = false then .ok st1
    else
      let absAncestor := deepestUnignoredDir abs env.roots
      if (dirs.lookup absAncestor).isSome then .ok st1
      else if absAncestor = "/" then .ok st1
      else
        let st2 := { st1 with onlyTestsAffected := sinsert st1.onlyTestsAffected absAncestor }
        resolvePhase env st2 absAncestor (Directory.mk true [])
  else
    let st2 :=
      if hasOnlyTestFilenames dir.files then
        { st1 with onlyTestsAffected := sinsert st1.onlyTestsAffected abs }
      else st1
    resolvePhase env st2 abs dir

/-- The classifier phase of markedPackages: fold the directory loop
over the diff result, then apply the embed correction that removes
packages with changed embedded files from onlyTestPackagesChanged. -/
def classifyDirs (env : GTAEnv) (dirs : List (String × Directory)) :
    Except String ClassifyState :=
  match dirs.foldlM (fun st e => processDir env dirs st e.1 e.2)
      (ClassifyState.mk [] [] [] []) with
  | .error e => .error e
  | .ok st =>
    .ok { st with
      onlyTestPackagesChanged :=
        st.onlyTestPackagesChanged.filter (fun k => decide (k ∉ st.embeddedChanged)) }

/-! ## The propagation of GTA.markedPackages from gta.go -/

/-- The per change propagation of markedPackages: a test only package
keeps the singleton mark, anything else is traversed through the
dependent graph and every marked identity that is itself deleted has
its mark value cleared to false. -/
def markedFor (graph : Graph) (changed : List (String × Bool)) (onlyTest : List String)
    (change : String) (deleted : Bool) : List (String × Bool) :=
  if change ∈ onlyTest then [(change, !deleted)]
  else
    (graph.Traverse change []).map
      (fun importPath => (importPath, !((changed.lookup importPath).getD false)))

/-- The propagation loop of markedPackages over the changed map. -/
def markedPackagesFrom (graph : Graph) (changed : List (String × Bool))
    (onlyTest : List String) : List (String × List (String × Bool)) :=
  changed.map (fun e => (e.1, markedFor graph changed onlyTest e.1 e.2))

/-- markedPackages from gta.go, with the diff result passed as data:
classify the changed directories, then build the marked map for every
changed import path from the dependent graph. -/
def markedPackages (env : GTAEnv) (dirs : List (String × Directory)) :
    Except String (List (String × List (String × Bool))) :=
  match classifyDirs env dirs with
  | .error e => .error e
  | .ok st =>
    match env.packager.dependentGraph with
    | .error e => .error ("building dependency graph, " ++ e)
    | .ok graph => .ok (markedPackagesFrom graph st.changed st.onlyTestPackagesChanged)

/-! ## GTA.ChangedPackages from gta.go -/

/-- Packages from gta.go. -/
structure Packages where
  dependencies : List (String × List Package)
  changes : List Package
  allChanges : List Package
deriving DecidableEq, Repr

/-- sort.Sort with the byPackageImportPath ordering from gta.go. -/
def sortPackages (l : List Package) : List Package :=
  l.mergeSort (fun a b => strLe a.importPath b.importPath)

/-- The state threaded through the loops of ChangedPackages. -/
structure BuildState where
  allChanges : List (String × Package)
  changes : List Package
  dependencies : List (String × List Package)
deriving DecidableEq, Repr

/-- One marked entry of the inner loop of ChangedPackages: start from a
bare package, resolve through PackageFromImport when the mark is true,
then apply the prefix filter and record the package in the running
allChanges map and in Changes or in the dependents of the current
change. -/
def buildStep (pkgr : Packager) (prefixes : List String) (changedKey : String)
    (acc : BuildState × List Package) (entry : String × Bool) :
    Except String (BuildState × List Package) :=
  match (if entry.2 then pkgr.packageFromImport entry.1
         else Except.ok (Package.mk entry.1 "")) with
  | .error e => .error e
  | .ok pkg =>
    if hasPrefixIn pkg.importPath prefixes then
      let st := { acc.1 with allChanges := mset acc.1.allChanges pkg.importPath pkg }
      if changedKey = pkg.importPath then
        .ok ({ st with changes := st.changes ++ [pkg] }, acc.2)
      else
        .ok (st, acc.2 ++ [pkg])
    else
      .ok acc

/-- The body of the outer loop of ChangedPackages for one change: fold
the inner loop over the marked map, then record the sorted dependents
list when it is non empty. -/
def buildForChange (pkgr : Packager) (prefixes : List String) (st : BuildState)
    (changedKey : String) (marked : List (String × Bool)) : Except String BuildState :=
  match marked.foldlM (buildStep pkgr prefixes changedKey) (st, []) with
  | .error e => .error e
  | .ok r =>
    if r.2.length ≠ 0 then
      .ok { r.1 with dependencies := mset r.1.dependencies changedKey (sortPackages r.2) }
    else
      .ok r.1

/-- ChangedPackages from gta.go, given the marked map of
markedPackages: build Dependencies, Changes and AllChanges, sorting
Changes and AllChanges at the end. -/
def changedPackages (pkgr : Packager) (prefixes : List String)
    (paths : List (String × List (String × Bool))) : Except String Packages :=
  match paths.foldlM (fun st e => buildForChange pkgr prefixes st e.1 e.2)
      (BuildState.mk [] [] []) with
  | .error e => .error e
  | .ok st =>
    .ok (Packages.mk st.dependencies (sortPackages st.changes)
      (sortPackages (st.allChanges.map Prod.snd)))

/-- ChangedPackages end to end: markedPackages then the build loop. -/
def changedPackagesTop (env : GTAEnv) (dirs : List (String × Directory)) :
    Except String Packages :=
  match markedPackages env dirs with
  | .error e => .error e
  | .ok paths => changedPackages env.packager env.prefixes paths

/-! ## The JSON conversion of Packages from gta.go

The generic text layer of encoding/json is not modelled: json.Marshal
writes struct fields and sorted map keys deterministically, and
json.Unmarshal recovers the packagesJSON struct, with empty collections
dropped by omitempty on marshal and restored as empty on parse, which
the list model absorbs.  What remains is the pair of conversions
between Packages and packagesJSON. -/

/-- packagesJSON from gta.go. -/
structure PackagesJSON where
  dependencies : List (String × List String)
  changes : List String
  allChanges : List String
deriving DecidableEq, Repr

/-- stringify from gta.go. -/
def stringify (pkgs : List Package) : List String := pkgs.map (fun p => p.importPath)

/-- mapify from gta.go. -/
def mapify (pkgs : List (String × List Package)) : List (String × List String) :=
  pkgs.map (fun e => (e.1, stringify e.2))

/-- MarshalJSON of Packages: the packagesJSON value handed to
json.Marshal. -/
def marshalPackages (p : Packages) : PackagesJSON :=
  PackagesJSON.mk (mapify p.dependencies) (stringify p.changes) (stringify p.allChanges)

/-- UnmarshalJSON of Packages: rebuild bare packages from the import
path lists.  A dependency key with an empty list never enters the map
because the Go loop only creates the key while appending elements. -/
def unmarshalPackages (s : PackagesJSON) : Packages :=
  Packages.mk
    (s.dependencies.filterMap
      (fun e =>
        match e.2 with
        | [] => none
        | vs => some (e.1, vs.map (fun vv => Package.mk vv ""))))
    (s.changes.map (fun v => Package.mk v ""))
    (s.allChanges.map (fun v => Package.mk v ""))

/-- parse of serialize of a Packages value. -/
def parseSerialize (p : Packages) : Packages := unmarshalPackages (marshalPackages p)

/-! ## PackageFromImport and stripVendor from the loader -/

/-- strings.Index of the vendor segment followed by the slice that
keeps everything after it: none when the segment does not occur,
otherwise the suffix after the first occurrence. -/
def dropThroughVendor : List Char → Option (List Char)
  | [] => none
  | c :: rest =>
    if "/vendor/".data.isPrefixOf (c :: rest) then some ((c :: rest).drop "/vendor/".length)
    else dropThroughVendor rest

/-- stripVendor from the loader: in module mode everything up to and
including the first vendor path segment is removed; with GO111MODULE
set to off the import path is returned unchanged.  The environment
switch is passed as a parameter. -/
def stripVendor (go111moduleOff : Bool) (importPath : String) : String :=
  if go111moduleOff then importPath
  else
    match dropThroughVendor importPath.data with
    | none => importPath
    | some rest => String.mk rest

/-- PackageFromImport of the loader packageContext: strip the vendor
segment and answer from the forward graph; the Dir field currently
carries the import path itself. -/
def packageFromImportCtx (forward : List (String × List String)) (go111moduleOff : Bool)
    (importPath : String) : Except String Package :=
  if ((forward.lookup (stripVendor go111moduleOff importPath)).isSome : Bool) then
    .ok (Package.mk (stripVendor go111moduleOff importPath)
      (stripVendor go111moduleOff importPath))
  else
    .error (stripVendor go111moduleOff importPath ++ " not found")

/-! ## Proof toolkit for the loops of ChangedPackages -/

theorem mem_mset_self {β : Type} (m : List (String × β)) (k : String) (v : β) :
    (k, v) ∈ mset m k v := by
  induction m with
  | nil => simp [mset]
  | cons hd tl ih =>
    obtain ⟨k1, v1⟩ := hd
    by_cases hk : k1 = k
    · simp [mset, hk]
    · simp only [mset, if_neg hk]
      exact List.mem_cons_of_mem _ ih

theorem lookup_isSome_iff_mem_keys {β : Type} (l : List (String × β)) (k : String) :
    (l.lookup k).isSome = true ↔ k ∈ l.map Prod.fst := by
  induction l with
  | nil => simp [List.lookup]
  | cons hd tl ih =>
    obtain ⟨k1, v1⟩ := hd
    by_cases hk : k = k1
    · subst hk
      simp [List.lookup]
    · simp only [List.lookup, (by simpa using hk : (k == k1) = false), List.map_cons]
      rw [ih]
      constructor
      · exact fun h => List.mem_cons_of_mem _ h
      · intro h
        rcases List.mem_cons.mp h with h1 | h1
        · exact absurd h1 hk
        · exact h1

theorem lookup_map_of_mem {β γ : Type} {l : List (String × β)} {g : String × β → γ}
    {k : String} {v : β} (hnd : (l.map Prod.fst).Nodup) (hmem : (k, v) ∈ l) :
    (l.map (fun e => (e.1, g e))).lookup k = some (g (k, v)) := by
  induction l with
  | nil => simp at hmem
  | cons hd tl ih =>
    obtain ⟨k1, v1⟩ := hd
    simp only [List.map_cons, List.nodup_cons] at hnd
    rcases List.mem_cons.mp hmem with heq | hmem1
    · obtain ⟨h1, h2⟩ := Prod.mk.injEq .. ▸ heq
      subst h1
      subst h2
      simp [List.lookup]
    · have hk : k ≠ k1 := by
        intro hc
        subst hc
        exact hnd.1 (List.mem_map.mpr ⟨(k, v), hmem1, rfl⟩)
      simp only [List.map_cons, List.lookup,
        (by simpa using hk : (k == k1) = false)]
      exact ih hnd.2 hmem1

/-- Preservation of an invariant along a monadic fold in the error
monad. -/
theorem foldlM_except_inv {σ α : Type} {step : σ → α → Except String σ} {P : σ → Prop}
    (l : List α) (s : σ) (hs : P s)
    (hstep : ∀ s1 x s2, x ∈ l → P s1 → step s1 x = .ok s2 → P s2) :
    ∀ {r}, l.foldlM step s = .ok r → P r := by
  induction l generalizing s with
  | nil =>
    intro r h
    simp only [List.foldlM_nil] at h
    cases h
    exact hs
  | cons a t ih =>
    intro r h
    rw [List.foldlM_cons] at h
    cases hsa : step s a with
    | error e =>
      rw [hsa] at h
      exact Except.noConfusion h
    | ok s1 =>
      rw [hsa] at h
      exact ih s1 (hstep s a s1 (List.mem_cons_self _ _) hs hsa)
        (fun s2 x s3 hx => hstep s2 x s3 (List.mem_cons_of_mem _ hx)) h

/-- A property established when the fold reaches a given element and
preserved by every later step holds of the final state. -/
theorem foldlM_except_mem {σ α : Type} {step : σ → α → Except String σ} {P : σ → Prop}
    (l : List α) (s : σ) (x : α) (hx : x ∈ l)
    (hest : ∀ s1 s2, step s1 x = .ok s2 → P s2)
    (hper : ∀ s1 y s2, y ∈ l → P s1 → step s1 y = .ok s2 → P s2) :
    ∀ {r}, l.foldlM step s = .ok r → P r := by
  induction l generalizing s with
  | nil => simp at hx
  | cons a t ih =>
    intro r h
    rw [List.foldlM_cons] at h
    cases hsa : step s a with
    | error e =>
      rw [hsa] at h
      exact Except.noConfusion h
    | ok s1 =>
      rw [hsa] at h
      rcases List.mem_cons.mp hx with rfl | hxt
      · exact foldlM_except_inv t s1 (hest s s1 hsa)
          (fun s2 y s3 hy => hper s2 y s3 (List.mem_cons_of_mem _ hy)) h
      · exact ih s1 hxt (fun s2 y s3 hy => hper s2 y s3 (List.mem_cons_of_mem _ hy)) h

theorem sortedPkgs_sortPackages (l : List Package) :
    (sortPackages l).Pairwise (fun a b => strLe a.importPath b.importPath = true) :=
  List.sorted_mergeSort
    (fun a b c hab hbc => strLe_trans a.importPath b.importPath c.importPath hab hbc)
    (fun a b => strLe_total a.importPath b.importPath) l

theorem mem_sortPackages {p : Package} {l : List Package} :
    p ∈ sortPackages l ↔ p ∈ l := List.mem_mergeSort

theorem sortPackages_ne_nil {l : List Package} (h : l ≠ []) : sortPackages l ≠ [] := by
  intro hc
  apply h
  have hp := List.mergeSort_perm l (fun a b => strLe a.importPath b.importPath)
  rw [sortPackages] at hc
  rw [hc] at hp
  exact hp.nil_eq.symm

/-- Characterization of one successful step of the inner loop of
ChangedPackages. -/
theorem buildStep_ok {pkgr : Packager} {prefixes : List String} {ck : String}
    {acc acc2 : BuildState × List Package} {entry : String × Bool}
    (h : buildStep pkgr prefixes ck acc entry = .ok acc2) :
    ∃ pkg : Package,
      ((entry.2 = true ∧ pkgr.packageFromImport entry.1 = .ok pkg) ∨
       (entry.2 = false ∧ pkg = Package.mk entry.1 "")) ∧
      ((hasPrefixIn pkg.importPath prefixes = false ∧ acc2 = acc) ∨
       (hasPrefixIn pkg.importPath prefixes = true ∧
        ((ck = pkg.importPath ∧
          acc2 = ({ acc.1 with
                    allChanges := mset acc.1.allChanges pkg.importPath pkg,
                    changes := acc.1.changes ++ [pkg] }, acc.2)) ∨
         (ck ≠ pkg.importPath ∧
          acc2 = ({ acc.1 with allChanges := mset acc.1.allChanges pkg.importPath pkg },
                  acc.2 ++ [pkg]))))) := by
  have horigin : ∀ pkg,
      (if entry.2 then pkgr.packageFromImport entry.1
       else Except.ok (Package.mk entry.1 "")) = .ok pkg →
      ((entry.2 = true ∧ pkgr.packageFromImport entry.1 = .ok pkg) ∨
       (entry.2 = false ∧ pkg = Package.mk entry.1 "")) := by
    intro pkg heq
    cases he : entry.2 with
    | false =>
      rw [he] at heq
      simp only [Bool.false_eq_true, if_false] at heq
      exact Or.inr ⟨rfl, (Except.ok.inj heq).symm⟩
    | true =>
      rw [he] at heq
      simp only [if_true] at heq
      exact Or.inl ⟨rfl, heq⟩
  unfold buildStep at h
  split at h
  · exact Except.noConfusion h
  · rename_i pkg heq
    refine ⟨pkg, horigin pkg heq, ?_⟩
    by_cases hpre : hasPrefixIn pkg.importPath prefixes = true
    · rw [if_pos hpre] at h
      by_cases hck : ck = pkg.importPath
      · rw [if_pos hck] at h
        cases h
        exact Or.inr ⟨hpre, Or.inl ⟨hck, rfl⟩⟩
      · rw [if_neg hck] at h
        cases h
        exact Or.inr ⟨hpre, Or.inr ⟨hck, rfl⟩⟩
    · rw [if_neg hpre] at h
      cases h
      exact Or.inl ⟨Bool.not_eq_true _ ▸ hpre, rfl⟩

/-- Characterization of one successful iteration of the outer loop of
ChangedPackages. -/
theorem buildForChange_ok {pkgr : Packager} {prefixes : List String} {st st2 : BuildState}
    {ck : String} {marked : List (String × Bool)}
    (h : buildForChange pkgr prefixes st ck marked = .ok st2) :
    ∃ r : BuildState × List Package,
      marked.foldlM (buildStep pkgr prefixes ck) (st, []) = .ok r ∧
      ((r.2.length ≠ 0 ∧
        st2 = { r.1 with dependencies := mset r.1.dependencies ck (sortPackages r.2) }) ∨
       (r.2.length = 0 ∧ st2 = r.1)) := by
  unfold buildForChange at h
  split at h
  · exact Except.noConfusion h
  · rename_i r hfold
    refine ⟨r, hfold, ?_⟩
    by_cases hlen : r.2.length ≠ 0
    · rw [if_pos hlen] at h
      cases h
      exact Or.inl ⟨hlen, rfl⟩
    · rw [if_neg hlen] at h
      cases h
      exact Or.inr ⟨Decidable.not_not.mp hlen, rfl⟩

/-- Characterization of a successful run of ChangedPackages. -/
theorem changedPackages_ok {pkgr : Packager} {prefixes : List String}
    {paths : List (String × List (String × Bool))} {cp : Packages}
    (h : changedPackages pkgr prefixes paths = .ok cp) :
    ∃ st : BuildState,
      paths.foldlM (fun st e => buildForChange pkgr prefixes st e.1 e.2)
        (BuildState.mk [] [] []) = .ok st ∧
      cp = Packages.mk st.dependencies (sortPackages st.changes)
        (sortPackages (st.allChanges.map Prod.snd)) := by
  unfold changedPackages at h
  split at h
  · exact Except.noConfusion h
  · rename_i st hfold
    cases h
    exact ⟨st, hfold, rfl⟩

/-! ## Claim theorems -/

/-- C2: in the propagator, a change identity that lies in
only_test_packages_changed receives exactly the singleton marked map
binding itself to the negation of its deleted flag, so no dependent of
the change is marked and none can enter AllChanges by virtue of this
change alone. -/
theorem markedPackages_test_only_isolation
    (graph : Graph) (changed : List (String × Bool)) (onlyTest : List String)
    (change : String) (deleted : Bool)
    (hmem : (change, deleted) ∈ changed) (honly : change ∈ onlyTest) :
    (change, [(change, !deleted)]) ∈ markedPackagesFrom graph changed onlyTest ∧
    ((changed.map Prod.fst).Nodup →
      (markedPackagesFrom graph changed onlyTest).lookup change =
        some [(change, !deleted)]) := by
  constructor
  · exact List.mem_map.mpr ⟨(change, deleted), hmem, by simp [markedFor, honly]⟩
  · intro hnd
    unfold markedPackagesFrom
    have hlk := lookup_map_of_mem
      (g := fun e => (markedFor graph changed onlyTest e.1 e.2)) hnd hmem
    rw [show (fun e : String × Bool =>
        (e.1, markedFor graph changed onlyTest e.1 e.2)) =
      (fun e : String × Bool =>
        (e.1, (fun e2 : String × Bool => markedFor graph changed onlyTest e2.1 e2.2) e)) from rfl]
    rw [hlk]
    simp [markedFor, honly]

theorem markedPackages_test_only_isolation_witness :
    ("a", [("a", true)]) ∈
      markedPackagesFrom (Graph.mk [("a", ["b"])]) [("a", false)] ["a"] :=
  (markedPackages_test_only_isolation (Graph.mk [("a", ["b"])]) [("a", false)] ["a"]
    "a" false (by decide) (by decide)).1

/-- C4: Graph.Traverse is a total function of this development, so it
terminates on every finite graph, cyclic or not; started on an empty
mark it marks exactly the nodes reachable from the start node, and a
start node that is not a key of the graph yields a mark holding only
the start node itself. -/
theorem traverse_marks_reachable (g : Graph) (start : String) :
    (∀ x, x ∈ g.Traverse start [] ↔ Reachable g.graph start x) ∧
    (g.graph.lookup start = none → ∀ x, x ∈ g.Traverse start [] ↔ x = start) := by
  have hstart : start ∈ (traverseNode g.graph start []).val :=
    (traverseNode g.graph start []).property.2.1
  have hfc := (traverseNode g.graph start []).property.2.2.1
  have hsound := (traverseNode g.graph start []).property.2.2.2
  have hclosed : ∀ a x, Reachable g.graph a x →
      a ∈ (traverseNode g.graph start []).val → x ∈ (traverseNode g.graph start []).val := by
    intro a x hre
    induction hre with
    | refl y => exact fun h => h
    | step hlk hmem _ ih =>
      intro ha
      exact ih (hfc _ ha (List.not_mem_nil _) _ hlk _ hmem)
  constructor
  · intro x
    constructor
    · intro hx
      rcases hsound x hx with hm | hr
      · exact absurd hm (List.not_mem_nil x)
      · exact hr
    · intro hre
      exact hclosed start x hre hstart
  · intro hnone x
    constructor
    · intro hx
      rcases hsound x hx with hm | hr
      · exact absurd hm (List.not_mem_nil x)
      · cases hr with
        | refl => rfl
        | step hlk _ _ =>
          rw [hnone] at hlk
          exact Option.noConfusion hlk
    · intro hxe
      subst hxe
      exact hstart

theorem traverse_marks_reachable_witness :
    "b" ∈ (Graph.mk [("a", ["b", "a"]), ("b", ["a"])]).Traverse "a" [] ∧
    ("z" ∈ (Graph.mk [("a", ["b"])]).Traverse "z" [] ↔ "z" = "z") :=
  ⟨(traverse_marks_reachable (Graph.mk [("a", ["b", "a"]), ("b", ["a"])]) "a").1 "b" |>.mpr
      (@Reachable.step [("a", ["b", "a"]), ("b", ["a"])] "a" "b" "b" ["b", "a"]
        (by decide) (by decide) (Reachable.refl "b")),
   (traverse_marks_reachable (Graph.mk [("a", ["b"])]) "z").2 (by decide) "z"⟩

/-- C8: PackageFromImport of the loader returns a package whose
identity is stripVendor of the import path exactly when the forward
graph has that identity as a key, and returns the not found failure
otherwise. -/
theorem packageFromImport_strips_vendor (forward : List (String × List String))
    (off : Bool) (p : String) :
    ((∃ pkg, packageFromImportCtx forward off p = .ok pkg ∧
        pkg.importPath = stripVendor off p) ↔
      stripVendor off p ∈ forward.map Prod.fst) ∧
    (stripVendor off p ∉ forward.map Prod.fst →
      packageFromImportCtx forward off p = .error (stripVendor off p ++ " not found")) := by
  unfold packageFromImportCtx
  by_cases hs : (forward.lookup (stripVendor off p)).isSome = true
  · rw [if_pos hs]
    constructor
    · constructor
      · intro _
        exact (lookup_isSome_iff_mem_keys _ _).mp hs
      · intro _
        exact ⟨Package.mk (stripVendor off p) (stripVendor off p), rfl, rfl⟩
    · intro hmem
      exact absurd ((lookup_isSome_iff_mem_keys _ _).mp hs) hmem
  · rw [if_neg hs]
    constructor
    · constructor
      · rintro ⟨pkg, hpkg, _⟩
        exact Except.noConfusion hpkg
      · intro hmem
        exact absurd ((lookup_isSome_iff_mem_keys _ _).mpr hmem) hs
    · intro _
      rfl

theorem packageFromImport_strips_vendor_witness :
    (∃ pkg, packageFromImportCtx [("x", ([] : List String))] false "a/vendor/x" = .ok pkg ∧
      pkg.importPath = stripVendor false "a/vendor/x") ∧
    packageFromImportCtx [("x", ([] : List String))] false "q" =
      .error (stripVendor false "q" ++ " not found") :=
  ⟨(packageFromImport_strips_vendor [("x", [])] false "a/vendor/x").1.mpr (by decide),
   (packageFromImport_strips_vendor [("x", [])] false "q").2 (by decide)⟩

/-- C9 counterexample: the JSON round trip is not the identity on every
Packages value, because the Dir field is dropped: a package carrying a
non empty Dir comes back as a bare package. -/
theorem parseSerialize_not_identity :
    parseSerialize (Packages.mk [] [Package.mk "a" "/tmp/a"] []) ≠
      Packages.mk [] [Package.mk "a" "/tmp/a"] [] := by
  decide

/-- C9 amended: the JSON round trip preserves every import path in
Changes, AllChanges and Dependencies, drops dependency entries with an
empty list, and erases every Dir field; it is the identity exactly on
values whose Dir fields are all empty and whose dependency lists are
all non empty. -/
theorem parseSerialize_spec (x : Packages) :
    stringify (parseSerialize x).changes = stringify x.changes ∧
    stringify (parseSerialize x).allChanges = stringify x.allChanges ∧
    mapify (parseSerialize x).dependencies =
      (mapify x.dependencies).filter (fun e => !e.2.isEmpty) ∧
    ((∀ p ∈ x.changes, p.dir = "") → (∀ p ∈ x.allChanges, p.dir = "") →
      (∀ e ∈ x.dependencies, e.2 ≠ [] ∧ ∀ p ∈ e.2, p.dir = "") →
      parseSerialize x = x) := by
  have hmapbare : ∀ l : List Package, (∀ p ∈ l, p.dir = "") →
      l.map (fun p => Package.mk p.importPath "") = l := by
    intro l
    induction l with
    | nil => intro _; rfl
    | cons p t ih =>
      intro hall
      have hp := hall p (List.mem_cons_self _ _)
      have ht := ih (fun q hq => hall q (List.mem_cons_of_mem _ hq))
      simp only [List.map_cons, ht]
      cases p with
      | mk ip d =>
        simp only at hp
        rw [hp]
  have hdeps : ∀ d : List (String × List Package),
      mapify ((mapify d).filterMap
        (fun e => match e.2 with
          | [] => none
          | vs => some (e.1, vs.map (fun vv => Package.mk vv "")))) =
      (mapify d).filter (fun e => !e.2.isEmpty) := by
    intro d
    induction d with
    | nil => rfl
    | cons hd tl ih =>
      obtain ⟨k, vs⟩ := hd
      cases vs with
      | nil =>
        simp only [mapify, List.map_cons, stringify, List.filterMap_cons] at ih ⊢
        simpa using ih
      | cons v vrest =>
        simp only [mapify, List.map_cons, stringify, List.filterMap_cons] at ih ⊢
        simp only [List.map_cons, List.filter_cons]
        simp only [List.isEmpty_cons, Bool.not_false, if_true]
        refine List.cons_eq_cons.mpr ⟨?_, by simpa using ih⟩
        simp [List.map_map, Function.comp]
  refine ⟨?_, ?_, ?_, ?_⟩
  · simp [parseSerialize, unmarshalPackages, marshalPackages, stringify, List.map_map,
      Function.comp]
  · simp [parseSerialize, unmarshalPackages, marshalPackages, stringify, List.map_map,
      Function.comp]
  · exact hdeps x.dependencies
  · intro hc hac hd
    have hdid : ∀ d : List (String × List Package),
        (∀ e ∈ d, e.2 ≠ [] ∧ ∀ p ∈ e.2, p.dir = "") →
        (mapify d).filterMap
          (fun e => match e.2 with
            | [] => none
            | vs => some (e.1, vs.map (fun vv => Package.mk vv ""))) = d := by
      intro d
      induction d with
      | nil => intro _; rfl
      | cons hd2 tl ih =>
        intro hall
        obtain ⟨k, vs⟩ := hd2
        obtain ⟨hne, hdirs⟩ := hall (k, vs) (List.mem_cons_self _ _)
        have ht := ih (fun e he => hall e (List.mem_cons_of_mem _ he))
        cases vs with
        | nil => exact absurd rfl hne
        | cons v vrest =>
          simp only [mapify, List.map_cons, stringify, List.filterMap_cons] at ht ⊢
          simp only [ht]
          refine List.cons_eq_cons.mpr ⟨?_, rfl⟩
          have : (v :: vrest).map (fun p => Package.mk p.importPath "") = v :: vrest :=
        hmapbare _ hdirs
          simp only [List.map_cons, List.map_map] at this ⊢
          exact Prod.ext rfl (by simpa [Function.comp] using this)
    cases x with
    | mk deps chs alls =>
      simp only at hc hac hd
      unfold parseSerialize unmarshalPackages marshalPackages
      congr 1
      · exact hdid deps hd
      · rw [show (stringify chs).map (fun v => Package.mk v "") =
            chs.map (fun p => Package.mk p.importPath "") from by
          simp [stringify, List.map_map, Function.comp]]
        exact hmapbare chs hc
      · rw [show (stringify alls).map (fun v => Package.mk v "") =
            alls.map (fun p => Package.mk p.importPath "") from by
          simp [stringify, List.map_map, Function.comp]]
        exact hmapbare alls hac

theorem parseSerialize_spec_witness :
    parseSerialize
      (Packages.mk [("k", [Package.mk "b" ""])] [Package.mk "a" ""]
        [Package.mk "a" "", Package.mk "b" ""]) =
      Packages.mk [("k", [Package.mk "b" ""])] [Package.mk "a" ""]
        [Package.mk "a" "", Package.mk "b" ""] :=
  (parseSerialize_spec _).2.2.2 (by decide) (by decide) (by decide)

theorem except_ok_bind {α β : Type} (x : α) (f : α → Except String β) :
    (Except.ok x >>= f) = f x := rfl

theorem innerFold_deps_eq {pkgr : Packager} {prefixes : List String} {ck : String}
    {marked : List (String × Bool)} {st : BuildState} {r : BuildState × List Package}
    (h : marked.foldlM (buildStep pkgr prefixes ck) (st, ([] : List Package)) = .ok r) :
    r.1.dependencies = st.dependencies := by
  refine foldlM_except_inv
    (P := fun acc : BuildState × List Package => acc.1.dependencies = st.dependencies)
    marked (st, []) rfl ?_ h
  intro a1 y a2 _ hP hstep
  obtain ⟨pkg, _, hcase⟩ := buildStep_ok hstep
  rcases hcase with ⟨_, rfl⟩ | ⟨_, hcase2⟩
  · exact hP
  · rcases hcase2 with ⟨_, rfl⟩ | ⟨_, rfl⟩ <;> exact hP

theorem innerFold_keyed {pkgr : Packager} {prefixes : List String} {ck : String}
    {marked : List (String × Bool)} {a1 : BuildState} {r : BuildState × List Package}
    (hkv : ∀ kv ∈ a1.allChanges, kv.2.importPath = kv.1)
    (h : marked.foldlM (buildStep pkgr prefixes ck) (a1, ([] : List Package)) = .ok r) :
    ∀ kv ∈ r.1.allChanges, kv.2.importPath = kv.1 := by
  refine foldlM_except_inv
    (P := fun acc : BuildState × List Package =>
      ∀ kv ∈ acc.1.allChanges, kv.2.importPath = kv.1)
    marked (a1, []) hkv ?_ h
  intro b1 y b2 _ hP hstep
  obtain ⟨pkg, _, hcase⟩ := buildStep_ok hstep
  rcases hcase with ⟨_, rfl⟩ | ⟨_, hcase2⟩
  · exact hP
  · rcases hcase2 with ⟨_, rfl⟩ | ⟨_, rfl⟩ <;>
    · intro kv hkv2
      rcases mem_mset hkv2 with hm | heq
      · exact hP kv hm
      · subst heq
        rfl

theorem outerFold_keyed {pkgr : Packager} {prefixes : List String}
    {paths : List (String × List (String × Bool))} {st : BuildState}
    (hfold : paths.foldlM (fun st e => buildForChange pkgr prefixes st e.1 e.2)
      (BuildState.mk [] [] []) = .ok st) :
    ∀ kv ∈ st.allChanges, kv.2.importPath = kv.1 := by
  refine foldlM_except_inv
    (P := fun s : BuildState => ∀ kv ∈ s.allChanges, kv.2.importPath = kv.1)
    paths (BuildState.mk [] [] []) (by simp) ?_ hfold
  intro s1 x s2 _ hP hstep
  obtain ⟨r, hfold2, hcase⟩ := buildForChange_ok hstep
  have hr := innerFold_keyed hP hfold2
  rcases hcase with ⟨_, rfl⟩ | ⟨_, rfl⟩ <;> exact hr

theorem buildForChange_keys_mono {pkgr : Packager} {prefixes : List String}
    {s1 s2 : BuildState} {ck : String} {marked : List (String × Bool)}
    (h : buildForChange pkgr prefixes s1 ck marked = .ok s2) :
    ∀ a, a ∈ s1.allChanges.map Prod.fst → a ∈ s2.allChanges.map Prod.fst := by
  obtain ⟨r, hfold2, hcase⟩ := buildForChange_ok h
  have hkeys : ∀ a, a ∈ s1.allChanges.map Prod.fst → a ∈ r.1.allChanges.map Prod.fst := by
    intro a ha
    refine foldlM_except_inv
      (P := fun acc : BuildState × List Package => a ∈ acc.1.allChanges.map Prod.fst)
      marked (s1, []) ha ?_ hfold2
    intro a1 y a2 _ hP hstep
    obtain ⟨pkg, _, hcase2⟩ := buildStep_ok hstep
    rcases hcase2 with ⟨_, rfl⟩ | ⟨_, hcase3⟩
    · exact hP
    · rcases hcase3 with ⟨_, rfl⟩ | ⟨_, rfl⟩ <;> exact keys_mset_mono hP
  intro a ha
  rcases hcase with ⟨_, rfl⟩ | ⟨_, rfl⟩ <;> exact hkeys a ha

theorem key_to_allChanges {st : BuildState}
    (hkv : ∀ kv ∈ st.allChanges, kv.2.importPath = kv.1)
    {a : String} (ha : a ∈ st.allChanges.map Prod.fst) :
    ∃ q ∈ sortPackages (st.allChanges.map Prod.snd), q.importPath = a := by
  obtain ⟨kv, hm, he⟩ := List.mem_map.mp ha
  exact ⟨kv.2, mem_sortPackages.mpr (List.mem_map.mpr ⟨kv, hm, rfl⟩), by rw [hkv kv hm, he]⟩

/-- C7: every result of ChangedPackages has Changes, AllChanges and
every dependents list sorted ascending by import path. -/
theorem changedPackages_sorted (pkgr : Packager) (prefixes : List String)
    (paths : List (String × List (String × Bool))) (cp : Packages)
    (h : changedPackages pkgr prefixes paths = .ok cp) :
    cp.changes.Pairwise (fun a b => strLe a.importPath b.importPath = true) ∧
    cp.allChanges.Pairwise (fun a b => strLe a.importPath b.importPath = true) ∧
    ∀ e ∈ cp.dependencies,
      e.2.Pairwise (fun a b => strLe a.importPath b.importPath = true) := by
  obtain ⟨st, hfold, rfl⟩ := changedPackages_ok h
  refine ⟨sortedPkgs_sortPackages _, sortedPkgs_sortPackages _, ?_⟩
  refine foldlM_except_inv
    (P := fun s : BuildState => ∀ e ∈ s.dependencies,
      e.2.Pairwise (fun a b => strLe a.importPath b.importPath = true))
    paths (BuildState.mk [] [] []) (by simp) ?_ hfold
  intro s1 x s2 _ hP hstep
  obtain ⟨r, hfold2, hcase⟩ := buildForChange_ok hstep
  have hdeps := innerFold_deps_eq hfold2
  rcases hcase with ⟨hne, rfl⟩ | ⟨hz, rfl⟩
  · intro e he
    rcases mem_mset he with hmem | heq
    · exact hP e (hdeps ▸ hmem)
    · subst heq
      exact sortedPkgs_sortPackages _
  · intro e he
    exact hP e (hdeps ▸ he)

theorem changedPackages_sorted_witness :
    changedPackages (Packager.mk (fun _ => (Package.mk "" "", none))
        (fun _ => (Package.mk "" "", none)) (fun ip => .ok (Package.mk ip ip))
        (.ok (Graph.mk [])) (fun _ => []))
      [] [("b", [("b", false), ("a", false)])] =
      .ok (Packages.mk [("b", [Package.mk "a" ""])] [Package.mk "b" ""]
        [Package.mk "a" "", Package.mk "b" ""]) ∧
    (Packages.mk [("b", [Package.mk "a" ""])] [Package.mk "b" ""]
      [Package.mk "a" "", Package.mk "b" ""]).allChanges.Pairwise
        (fun a b => strLe a.importPath b.importPath = true) := by
  have hrun : changedPackages (Packager.mk (fun _ => (Package.mk "" "", none))
      (fun _ => (Package.mk "" "", none)) (fun ip => .ok (Package.mk ip ip))
      (.ok (Graph.mk [])) (fun _ => []))
      [] [("b", [("b", false), ("a", false)])] =
      .ok (Packages.mk [("b", [Package.mk "a" ""])] [Package.mk "b" ""]
        [Package.mk "a" "", Package.mk "b" ""]) := by
    simp [changedPackages, buildForChange, buildStep, hasPrefixIn, mset, sortPackages,
      List.mergeSort, strLe, charListLe, except_ok_bind]
  refine ⟨hrun, ?_⟩
  exact (changedPackages_sorted _ [] [("b", [("b", false), ("a", false)])] _ hrun).2.1

/-- C10: a change contributes a key to Dependencies only when at least
one dependent survives the prefix filter: every Dependencies entry has
a non empty list, every listed package differs from the key and passed
the prefix filter. -/
theorem changedPackages_deps_nonempty (pkgr : Packager) (prefixes : List String)
    (paths : List (String × List (String × Bool))) (cp : Packages)
    (h : changedPackages pkgr prefixes paths = .ok cp) :
    ∀ e ∈ cp.dependencies, e.2 ≠ [] ∧
      ∀ p ∈ e.2, p.importPath ≠ e.1 ∧ hasPrefixIn p.importPath prefixes = true := by
  obtain ⟨st, hfold, rfl⟩ := changedPackages_ok h
  refine foldlM_except_inv
    (P := fun s : BuildState => ∀ e ∈ s.dependencies, e.2 ≠ [] ∧
      ∀ p ∈ e.2, p.importPath ≠ e.1 ∧ hasPrefixIn p.importPath prefixes = true)
    paths (BuildState.mk [] [] []) (by simp) ?_ hfold
  intro s1 x s2 _ hP hstep
  obtain ⟨r, hfold2, hcase⟩ := buildForChange_ok hstep
  have hdeps := innerFold_deps_eq hfold2
  have hpkgs : ∀ p ∈ r.2, p.importPath ≠ x.1 ∧ hasPrefixIn p.importPath prefixes = true := by
    refine foldlM_except_inv
      (P := fun acc : BuildState × List Package =>
        ∀ p ∈ acc.2, p.importPath ≠ x.1 ∧ hasPrefixIn p.importPath prefixes = true)
      x.2 (s1, []) (by simp) ?_ hfold2
    intro a1 y a2 _ hP2 hstep2
    obtain ⟨pkg, _, hcase2⟩ := buildStep_ok hstep2
    rcases hcase2 with ⟨_, rfl⟩ | ⟨hpre, hcase3⟩
    · exact hP2
    · rcases hcase3 with ⟨hck, rfl⟩ | ⟨hck, rfl⟩
      · exact hP2
      · intro p hp
        rcases List.mem_append.mp hp with hp1 | hp1
        · exact hP2 p hp1
        · have hpp : p = pkg := List.mem_singleton.mp hp1
          subst hpp
          exact ⟨fun hc => hck hc.symm, hpre⟩
  rcases hcase with ⟨hne, rfl⟩ | ⟨hz, rfl⟩
  · intro e he
    rcases mem_mset he with hmem | heq
    · exact hP e (hdeps ▸ hmem)
    · subst heq
      refine ⟨sortPackages_ne_nil ?_, ?_⟩
      · intro hc
        apply hne
        rw [hc]
        rfl
      · intro p hp
        exact hpkgs p (mem_sortPackages.mp hp)
  · intro e he
    exact hP e (hdeps ▸ he)

theorem changedPackages_deps_nonempty_witness :
    changedPackages (Packager.mk (fun _ => (Package.mk "" "", none))
        (fun _ => (Package.mk "" "", none)) (fun ip => .ok (Package.mk ip ip))
        (.ok (Graph.mk [])) (fun _ => []))
      [] [("b", [("b", false), ("a", false)])] =
      .ok (Packages.mk [("b", [Package.mk "a" ""])] [Package.mk "b" ""]
        [Package.mk "a" "", Package.mk "b" ""]) ∧
    ([Package.mk "a" ""] ≠ [] ∧
      ∀ p ∈ [Package.mk "a" ""], p.importPath ≠ "b" ∧
        hasPrefixIn p.importPath [] = true) := by
  have hrun : changedPackages (Packager.mk (fun _ => (Package.mk "" "", none))
      (fun _ => (Package.mk "" "", none)) (fun ip => .ok (Package.mk ip ip))
      (.ok (Graph.mk [])) (fun _ => []))
      [] [("b", [("b", false), ("a", false)])] =
      .ok (Packages.mk [("b", [Package.mk "a" ""])] [Package.mk "b" ""]
        [Package.mk "a" "", Package.mk "b" ""]) := by
    simp [changedPackages, buildForChange, buildStep, hasPrefixIn, mset, sortPackages,
      List.mergeSort, strLe, charListLe, except_ok_bind]
  refine ⟨hrun, ?_⟩
  exact changedPackages_deps_nonempty _ [] [("b", [("b", false), ("a", false)])] _ hrun
    ("b", [Package.mk "a" ""]) (by decide)

/-- C5: in every result of ChangedPackages, every package of Changes
appears in AllChanges and every package of every Dependencies list
appears in AllChanges, where a package appears when AllChanges holds a
package with the same import path (package identity is the import
path). -/
theorem changedPackages_subset (pkgr : Packager) (prefixes : List String)
    (paths : List (String × List (String × Bool))) (cp : Packages)
    (h : changedPackages pkgr prefixes paths = .ok cp) :
    (∀ p ∈ cp.changes, ∃ q ∈ cp.allChanges, q.importPath = p.importPath) ∧
    (∀ e ∈ cp.dependencies, ∀ p ∈ e.2,
      ∃ q ∈ cp.allChanges, q.importPath = p.importPath) := by
  obtain ⟨st, hfold, rfl⟩ := changedPackages_ok h
  have hkv := outerFold_keyed hfold
  have hinv : (∀ p ∈ st.changes, p.importPath ∈ st.allChanges.map Prod.fst) ∧
      (∀ e ∈ st.dependencies, ∀ p ∈ e.2, p.importPath ∈ st.allChanges.map Prod.fst) := by
    refine foldlM_except_inv
      (P := fun s : BuildState =>
        (∀ p ∈ s.changes, p.importPath ∈ s.allChanges.map Prod.fst) ∧
        (∀ e ∈ s.dependencies, ∀ p ∈ e.2, p.importPath ∈ s.allChanges.map Prod.fst))
      paths (BuildState.mk [] [] []) (by simp) ?_ hfold
    intro s1 x s2 _ hP hstep
    obtain ⟨r, hfold2, hcase⟩ := buildForChange_ok hstep
    have hinner : ((∀ p ∈ r.1.changes, p.importPath ∈ r.1.allChanges.map Prod.fst) ∧
        (∀ e ∈ r.1.dependencies, ∀ p ∈ e.2, p.importPath ∈ r.1.allChanges.map Prod.fst)) ∧
        (∀ p ∈ r.2, p.importPath ∈ r.1.allChanges.map Prod.fst) := by
      refine foldlM_except_inv
        (P := fun acc : BuildState × List Package =>
          ((∀ p ∈ acc.1.changes, p.importPath ∈ acc.1.allChanges.map Prod.fst) ∧
           (∀ e ∈ acc.1.dependencies, ∀ p ∈ e.2,
             p.importPath ∈ acc.1.allChanges.map Prod.fst)) ∧
          (∀ p ∈ acc.2, p.importPath ∈ acc.1.allChanges.map Prod.fst))
        x.2 (s1, []) ⟨hP, by simp⟩ ?_ hfold2
      intro a1 y a2 _ hP2 hstep2
      obtain ⟨pkg, _, hcase2⟩ := buildStep_ok hstep2
      obtain ⟨⟨hch, hdp⟩, hpk⟩ := hP2
      rcases hcase2 with ⟨_, rfl⟩ | ⟨hpre, hcase3⟩
      · exact ⟨⟨hch, hdp⟩, hpk⟩
      · rcases hcase3 with ⟨hck, rfl⟩ | ⟨hck, rfl⟩
        · refine ⟨⟨?_, ?_⟩, ?_⟩
          · intro p hp
            rcases List.mem_append.mp hp with hp1 | hp1
            · exact keys_mset_mono (hch p hp1)
            · have hpp : p = pkg := List.mem_singleton.mp hp1
              subst hpp
              exact mem_keys_mset_self _ _ _
          · intro e he p hp
            exact keys_mset_mono (hdp e he p hp)
          · intro p hp
            exact keys_mset_mono (hpk p hp)
        · refine ⟨⟨?_, ?_⟩, ?_⟩
          · intro p hp
            exact keys_mset_mono (hch p hp)
          · intro e he p hp
            exact keys_mset_mono (hdp e he p hp)
          · intro p hp
            rcases List.mem_append.mp hp with hp1 | hp1
            · exact keys_mset_mono (hpk p hp1)
            · have hpp : p = pkg := List.mem_singleton.mp hp1
              subst hpp
              exact mem_keys_mset_self _ _ _
    obtain ⟨⟨hch, hdp⟩, hpk⟩ := hinner
    rcases hcase with ⟨hne, rfl⟩ | ⟨hz, rfl⟩
    · refine ⟨hch, ?_⟩
      intro e he p hp
      rcases mem_mset he with hmem | heq
      · exact hdp e hmem p hp
      · subst heq
        exact hpk p (mem_sortPackages.mp hp)
    · exact ⟨hch, hdp⟩
  obtain ⟨hch, hdp⟩ := hinv
  constructor
  · intro p hp
    exact key_to_allChanges hkv (hch p (mem_sortPackages.mp hp))
  · intro e he p hp
    exact key_to_allChanges hkv (hdp e he p hp)

theorem changedPackages_subset_witness :
    changedPackages (Packager.mk (fun _ => (Package.mk "" "", none))
        (fun _ => (Package.mk "" "", none)) (fun ip => .ok (Package.mk ip ip))
        (.ok (Graph.mk [])) (fun _ => []))
      [] [("b", [("b", false), ("a", false)])] =
      .ok (Packages.mk [("b", [Package.mk "a" ""])] [Package.mk "b" ""]
        [Package.mk "a" "", Package.mk "b" ""]) ∧
    (∀ p ∈ [Package.mk "b" ""],
      ∃ q ∈ [Package.mk "a" "", Package.mk "b" ""], q.importPath = p.importPath) := by
  have hrun : changedPackages (Packager.mk (fun _ => (Package.mk "" "", none))
      (fun _ => (Package.mk "" "", none)) (fun ip => .ok (Package.mk ip ip))
      (.ok (Graph.mk [])) (fun _ => []))
      [] [("b", [("b", false), ("a", false)])] =
      .ok (Packages.mk [("b", [Package.mk "a" ""])] [Package.mk "b" ""]
        [Package.mk "a" "", Package.mk "b" ""]) := by
    simp [changedPackages, buildForChange, buildStep, hasPrefixIn, mset, sortPackages,
      List.mergeSort, strLe, charListLe, except_ok_bind]
  refine ⟨hrun, ?_⟩
  exact (changedPackages_subset _ [] [("b", [("b", false), ("a", false)])] _ hrun).1

theorem hasPrefixIn_spec {s : String} {prefixes : List String} (hne : prefixes ≠ [])
    (h : hasPrefixIn s prefixes = true) : ∃ p ∈ prefixes, goHasPre s p = true := by
  unfold hasPrefixIn at h
  rw [if_neg (by simpa [List.length_eq_zero] using hne)] at h
  simpa [List.any_eq_true] using h

/-- C6: with an empty prefixes list every identity of every marked map
of every change appears in AllChanges (assuming PackageFromImport
preserves the identity it resolves, as the loader does); with a non
empty prefixes list every emitted identity starts with at least one
configured element. -/
theorem changedPackages_prefix_invariance (pkgr : Packager) (prefixes : List String)
    (paths : List (String × List (String × Bool))) (cp : Packages)
    (hpres : ∀ ip pkg, pkgr.packageFromImport ip = .ok pkg → pkg.importPath = ip)
    (h : changedPackages pkgr prefixes paths = .ok cp) :
    (prefixes = [] → ∀ e ∈ paths, ∀ me ∈ e.2,
      ∃ q ∈ cp.allChanges, q.importPath = me.1) ∧
    (prefixes ≠ [] →
      (∀ p ∈ cp.changes, ∃ pre ∈ prefixes, goHasPre p.importPath pre = true) ∧
      (∀ p ∈ cp.allChanges, ∃ pre ∈ prefixes, goHasPre p.importPath pre = true) ∧
      (∀ e ∈ cp.dependencies, ∀ p ∈ e.2,
        ∃ pre ∈ prefixes, goHasPre p.importPath pre = true)) := by
  obtain ⟨st, hfold, rfl⟩ := changedPackages_ok h
  constructor
  · intro hemp e he me hme
    have hkv := outerFold_keyed hfold
    have hkey : me.1 ∈ st.allChanges.map Prod.fst := by
      refine foldlM_except_mem (P := fun s : BuildState => me.1 ∈ s.allChanges.map Prod.fst)
        paths (BuildState.mk [] [] []) e he ?_ ?_ hfold
      · intro s1 s2 hstep
        obtain ⟨r, hfold2, hcase⟩ := buildForChange_ok hstep
        have hr : me.1 ∈ r.1.allChanges.map Prod.fst := by
          refine foldlM_except_mem
            (P := fun acc : BuildState × List Package =>
              me.1 ∈ acc.1.allChanges.map Prod.fst)
            e.2 (s1, []) me hme ?_ ?_ hfold2
          · intro a1 a2 hstep2
            obtain ⟨pkg, horigin, hcase2⟩ := buildStep_ok hstep2
            have hip : pkg.importPath = me.1 := by
              rcases horigin with ⟨_, hres⟩ | ⟨_, rfl⟩
              · exact hpres me.1 pkg hres
              · rfl
            rcases hcase2 with ⟨hpre, _⟩ | ⟨_, hcase3⟩
            · rw [hemp] at hpre
              simp [hasPrefixIn] at hpre
            · rcases hcase3 with ⟨_, rfl⟩ | ⟨_, rfl⟩ <;>
              · rw [← hip]
                exact mem_keys_mset_self _ _ _
          · intro a1 y a2 _ hP2 hstep2
            obtain ⟨pkg, _, hcase2⟩ := buildStep_ok hstep2
            rcases hcase2 with ⟨_, rfl⟩ | ⟨_, hcase3⟩
            · exact hP2
            · rcases hcase3 with ⟨_, rfl⟩ | ⟨_, rfl⟩ <;> exact keys_mset_mono hP2
        rcases hcase with ⟨_, rfl⟩ | ⟨_, rfl⟩ <;> exact hr
      · intro s1 y s2 _ hP hstep
        exact buildForChange_keys_mono hstep me.1 hP
    exact key_to_allChanges hkv hkey
  · intro hne
    have hinv : (∀ p ∈ st.changes, hasPrefixIn p.importPath prefixes = true) ∧
        (∀ kv ∈ st.allChanges, hasPrefixIn kv.2.importPath prefixes = true) ∧
        (∀ e ∈ st.dependencies, ∀ p ∈ e.2, hasPrefixIn p.importPath prefixes = true) := by
      refine foldlM_except_inv
        (P := fun s : BuildState =>
          (∀ p ∈ s.changes, hasPrefixIn p.importPath prefixes = true) ∧
          (∀ kv ∈ s.allChanges, hasPrefixIn kv.2.importPath prefixes = true) ∧
          (∀ e ∈ s.dependencies, ∀ p ∈ e.2, hasPrefixIn p.importPath prefixes = true))
        paths (BuildState.mk [] [] []) (by simp) ?_ hfold
      intro s1 x s2 _ hP hstep
      obtain ⟨r, hfold2, hcase⟩ := buildForChange_ok hstep
      have hinner : ((∀ p ∈ r.1.changes, hasPrefixIn p.importPath prefixes = true) ∧
          (∀ kv ∈ r.1.allChanges, hasPrefixIn kv.2.importPath prefixes = true) ∧
          (∀ e ∈ r.1.dependencies, ∀ p ∈ e.2, hasPrefixIn p.importPath prefixes = true)) ∧
          (∀ p ∈ r.2, hasPrefixIn p.importPath prefixes = true) := by
        refine foldlM_except_inv
          (P := fun acc : BuildState × List Package =>
            ((∀ p ∈ acc.1.changes, hasPrefixIn p.importPath prefixes = true) ∧
             (∀ kv ∈ acc.1.allChanges, hasPrefixIn kv.2.importPath prefixes = true) ∧
             (∀ e ∈ acc.1.dependencies, ∀ p ∈ e.2,
               hasPrefixIn p.importPath prefixes = true)) ∧
            (∀ p ∈ acc.2, hasPrefixIn p.importPath prefixes = true))
          x.2 (s1, []) ⟨hP, by simp⟩ ?_ hfold2
        intro a1 y a2 _ hP2 hstep2
        obtain ⟨pkg, _, hcase2⟩ := buildStep_ok hstep2
        obtain ⟨⟨hch, hkv2, hdp⟩, hpk⟩ := hP2
        rcases hcase2 with ⟨_, rfl⟩ | ⟨hpre, hcase3⟩
        · exact ⟨⟨hch, hkv2, hdp⟩, hpk⟩
        · rcases hcase3 with ⟨hck, rfl⟩ | ⟨hck, rfl⟩
          · refine ⟨⟨?_, ?_, hdp⟩, hpk⟩
            · intro p hp
              rcases List.mem_append.mp hp with hp1 | hp1
              · exact hch p hp1
              · have hpp : p = pkg := List.mem_singleton.mp hp1
                subst hpp
                exact hpre
            · intro kv hkv3
              rcases mem_mset hkv3 with hm | heq
              · exact hkv2 kv hm
              · subst heq
                exact hpre
          · refine ⟨⟨hch, ?_, hdp⟩, ?_⟩
            · intro kv hkv3
              rcases mem_mset hkv3 with hm | heq
              · exact hkv2 kv hm
              · subst heq
                exact hpre
            · intro p hp
              rcases List.mem_append.mp hp with hp1 | hp1
              · exact hpk p hp1
              · have hpp : p = pkg := List.mem_singleton.mp hp1
                subst hpp
                exact hpre
      obtain ⟨⟨hch, hkv2, hdp⟩, hpk⟩ := hinner
      rcases hcase with ⟨hne2, rfl⟩ | ⟨hz, rfl⟩
      · refine ⟨hch, hkv2, ?_⟩
        intro e he p hp
        rcases mem_mset he with hmem | heq
        · exact hdp e hmem p hp
        · subst heq
          exact hpk p (mem_sortPackages.mp hp)
      · exact ⟨hch, hkv2, hdp⟩
    obtain ⟨hch, hkv2, hdp⟩ := hinv
    refine ⟨?_, ?_, ?_⟩
    · intro p hp
      exact hasPrefixIn_spec hne (hch p (mem_sortPackages.mp hp))
    · intro p hp
      obtain ⟨kv, hm, rfl⟩ := List.mem_map.mp (mem_sortPackages.mp hp)
      exact hasPrefixIn_spec hne (hkv2 kv hm)
    · intro e he p hp
      exact hasPrefixIn_spec hne (hdp e he p hp)

theorem changedPackages_prefix_invariance_witness :
    changedPackages (Packager.mk (fun _ => (Package.mk "" "", none))
        (fun _ => (Package.mk "" "", none)) (fun ip => .ok (Package.mk ip ip))
        (.ok (Graph.mk [])) (fun _ => []))
      [] [("b", [("b", false), ("a", false)])] =
      .ok (Packages.mk [("b", [Package.mk "a" ""])] [Package.mk "b" ""]
        [Package.mk "a" "", Package.mk "b" ""]) ∧
    (∃ q ∈ [Package.mk "a" "", Package.mk "b" ""], q.importPath = "a") := by
  have hrun : changedPackages (Packager.mk (fun _ => (Package.mk "" "", none))
      (fun _ => (Package.mk "" "", none)) (fun ip => .ok (Package.mk ip ip))
      (.ok (Graph.mk [])) (fun _ => []))
      [] [("b", [("b", false), ("a", false)])] =
      .ok (Packages.mk [("b", [Package.mk "a" ""])] [Package.mk "b" ""]
        [Package.mk "a" "", Package.mk "b" ""]) := by
    simp [changedPackages, buildForChange, buildStep, hasPrefixIn, mset, sortPackages,
      List.mergeSort, strLe, charListLe, except_ok_bind]
  refine ⟨hrun, ?_⟩
  exact (changedPackages_prefix_invariance _ [] [("b", [("b", false), ("a", false)])] _
    (fun ip pkg hok => by
      cases hok
      rfl)
    hrun).1 rfl ("b", [("b", false), ("a", false)]) (by decide) ("a", false) (by decide)

theorem nodup_keys_eq {β : Type} {l : List (String × β)} {k : String} {a b : β}
    (hnd : (l.map Prod.fst).Nodup) (ha : (k, a) ∈ l) (hb : (k, b) ∈ l) : a = b := by
  induction l with
  | nil => simp at ha
  | cons hd tl ih =>
    obtain ⟨k1, v1⟩ := hd
    simp only [List.map_cons, List.nodup_cons] at hnd
    rcases List.mem_cons.mp ha with heq1 | hm1
    · obtain ⟨he1, he2⟩ := Prod.mk.injEq .. ▸ heq1
      subst he1
      subst he2
      rcases List.mem_cons.mp hb with heq2 | hm2
      · exact ((Prod.mk.injEq .. ▸ heq2).2).symm
      · exact absurd (List.mem_map.mpr ⟨(k, b), hm2, rfl⟩) hnd.1
    · rcases List.mem_cons.mp hb with heq2 | hm2
      · obtain ⟨he1, he2⟩ := Prod.mk.injEq .. ▸ heq2
        subst he1
        exact absurd (List.mem_map.mpr ⟨(k, a), hm1, rfl⟩) hnd.1
      · exact ih hnd.2 hm1 hm2

theorem buildForChange_changes_mono {pkgr : Packager} {prefixes : List String}
    {s1 s2 : BuildState} {ck : String} {marked : List (String × Bool)}
    (h : buildForChange pkgr prefixes s1 ck marked = .ok s2) :
    ∀ p ∈ s1.changes, p ∈ s2.changes := by
  obtain ⟨r, hfold2, hcase⟩ := buildForChange_ok h
  have hmono : ∀ p ∈ s1.changes, p ∈ r.1.changes := by
    intro p hp
    refine foldlM_except_inv
      (P := fun acc : BuildState × List Package => p ∈ acc.1.changes)
      marked (s1, []) hp ?_ hfold2
    intro a1 y a2 _ hP hstep
    obtain ⟨pkg, _, hcase2⟩ := buildStep_ok hstep
    rcases hcase2 with ⟨_, rfl⟩ | ⟨_, hcase3⟩
    · exact hP
    · rcases hcase3 with ⟨_, rfl⟩ | ⟨_, rfl⟩
      · exact List.mem_append.mpr (Or.inl hP)
      · exact hP
  intro p hp
  rcases hcase with ⟨_, rfl⟩ | ⟨_, rfl⟩ <;> exact hmono p hp

/-- C3 counterexample: a marked entry with value false whose identity
does not pass the prefix filter is not emitted by ChangedPackages at
all, so a deleted package does not unconditionally appear in
Changes. -/
theorem marked_false_entry_filtered_out :
    (("a", false) ∈ [("a", false)]) ∧
    changedPackages (Packager.mk (fun _ => (Package.mk "" "", none))
        (fun _ => (Package.mk "" "", none)) (fun ip => .ok (Package.mk ip ip))
        (.ok (Graph.mk [])) (fun _ => []))
      ["zzz"] [("a", [("a", false)])] = .ok (Packages.mk [] [] []) := by
  refine ⟨by decide, ?_⟩
  simp [changedPackages, buildForChange, buildStep, hasPrefixIn, goHasPre, mset,
    sortPackages, List.mergeSort, except_ok_bind]

/-- C3 amended: in the propagator, every identity in the traversal of a
change that the changed map records as deleted has its mark value reset
to false; and every marked entry with value false whose identity passes
the prefix filter is emitted by ChangedPackages as a bare package with
that import path and an empty dir, into Changes when the identity is
the change itself and into the dependents list of the change otherwise;
in particular a deleted package that passes the filter appears in
Changes with an empty dir. -/
theorem deleted_marked_false_emitted_bare
    (graph : Graph) (changed : List (String × Bool)) (onlyTest : List String)
    (change : String) (deleted : Bool) (ip : String)
    (pkgr : Packager) (prefixes : List String)
    (paths : List (String × List (String × Bool))) (marked : List (String × Bool))
    (cp : Packages) :
    (change ∉ onlyTest → ip ∈ graph.Traverse change [] →
      changed.lookup ip = some true →
      (ip, false) ∈ markedFor graph changed onlyTest change deleted) ∧
    ((paths.map Prod.fst).Nodup → (change, marked) ∈ paths → (ip, false) ∈ marked →
      hasPrefixIn ip prefixes = true →
      changedPackages pkgr prefixes paths = .ok cp →
      (ip = change → Package.mk ip "" ∈ cp.changes) ∧
      (ip ≠ change → ∃ l, (change, l) ∈ cp.dependencies ∧ Package.mk ip "" ∈ l)) := by
  constructor
  · intro hnot htrav hlk
    unfold markedFor
    rw [if_neg hnot]
    refine List.mem_map.mpr ⟨ip, htrav, ?_⟩
    rw [hlk]
    rfl
  · intro hnd hpmem hmmem hpre hok
    obtain ⟨st, hfold, rfl⟩ := changedPackages_ok hok
    constructor
    · intro hipc
      have hmem : Package.mk ip "" ∈ st.changes := by
        refine foldlM_except_mem
          (P := fun s : BuildState => Package.mk ip "" ∈ s.changes)
          paths (BuildState.mk [] [] []) (change, marked) hpmem ?_ ?_ hfold
        · intro s1 s2 hstep
          obtain ⟨r, hfold2, hcase⟩ := buildForChange_ok hstep
          have hr : Package.mk ip "" ∈ r.1.changes := by
            refine foldlM_except_mem
              (P := fun acc : BuildState × List Package =>
                Package.mk ip "" ∈ acc.1.changes)
              marked (s1, []) (ip, false) hmmem ?_ ?_ hfold2
            · intro a1 a2 hstep2
              obtain ⟨pkg, horigin, hcase2⟩ := buildStep_ok hstep2
              have hip : pkg = Package.mk ip "" := by
                rcases horigin with ⟨hfalse, _⟩ | ⟨_, rfl⟩
                · simp at hfalse
                · rfl
              subst hip
              rcases hcase2 with ⟨hpre2, _⟩ | ⟨_, hcase3⟩
              · rw [hpre2] at hpre
                exact Bool.noConfusion hpre
              · rcases hcase3 with ⟨_, rfl⟩ | ⟨hck, _⟩
                · exact List.mem_append.mpr (Or.inr (List.mem_singleton.mpr rfl))
                · exact absurd hipc.symm hck
            · intro a1 y a2 _ hP2 hstep2
              obtain ⟨pkg, _, hcase2⟩ := buildStep_ok hstep2
              rcases hcase2 with ⟨_, rfl⟩ | ⟨_, hcase3⟩
              · exact hP2
              · rcases hcase3 with ⟨_, rfl⟩ | ⟨_, rfl⟩
                · exact List.mem_append.mpr (Or.inl hP2)
                · exact hP2
          rcases hcase with ⟨_, rfl⟩ | ⟨_, rfl⟩ <;> exact hr
        · intro s1 y s2 _ hP hstep
          exact buildForChange_changes_mono hstep _ hP
      exact mem_sortPackages.mpr hmem
    · intro hipc
      have hest : ∀ s1 s2, buildForChange pkgr prefixes s1 change marked = .ok s2 →
          ∃ l, (change, l) ∈ s2.dependencies ∧ Package.mk ip "" ∈ l := by
        intro s1 s2 hstep
        obtain ⟨r, hfold2, hcase⟩ := buildForChange_ok hstep
        have hr : Package.mk ip "" ∈ r.2 := by
          refine foldlM_except_mem
            (P := fun acc : BuildState × List Package => Package.mk ip "" ∈ acc.2)
            marked (s1, []) (ip, false) hmmem ?_ ?_ hfold2
          · intro a1 a2 hstep2
            obtain ⟨pkg, horigin, hcase2⟩ := buildStep_ok hstep2
            have hip : pkg = Package.mk ip "" := by
              rcases horigin with ⟨hfalse, _⟩ | ⟨_, rfl⟩
              · simp at hfalse
              · rfl
            subst hip
            rcases hcase2 with ⟨hpre2, _⟩ | ⟨_, hcase3⟩
            · rw [hpre2] at hpre
              exact Bool.noConfusion hpre
            · rcases hcase3 with ⟨hck, _⟩ | ⟨_, rfl⟩
              · exact absurd hck.symm hipc
              · exact List.mem_append.mpr (Or.inr (List.mem_singleton.mpr rfl))
          · intro a1 y a2 _ hP2 hstep2
            obtain ⟨pkg, _, hcase2⟩ := buildStep_ok hstep2
            rcases hcase2 with ⟨_, rfl⟩ | ⟨_, hcase3⟩
            · exact hP2
            · rcases hcase3 with ⟨_, rfl⟩ | ⟨_, rfl⟩
              · exact hP2
              · exact List.mem_append.mpr (Or.inl hP2)
        rcases hcase with ⟨hne, rfl⟩ | ⟨hz, rfl⟩
        · exact ⟨sortPackages r.2, mem_mset_self _ _ _, mem_sortPackages.mpr hr⟩
        · exfalso
          rw [List.length_eq_zero] at hz
          exact List.ne_nil_of_mem hr hz
      have hfinal : ∃ l, (change, l) ∈ st.dependencies ∧ Package.mk ip "" ∈ l := by
        refine foldlM_except_mem
          (P := fun s : BuildState =>
            ∃ l, (change, l) ∈ s.dependencies ∧ Package.mk ip "" ∈ l)
          paths (BuildState.mk [] [] []) (change, marked) hpmem ?_ ?_ hfold
        · intro s1 s2 hstep
          exact hest s1 s2 hstep
        · intro s1 y s2 hy hP hstep
          by_cases hkey : y.1 = change
          · have hy2 : y.2 = marked := by
              have : (y.1, y.2) ∈ paths := by
                cases y
                exact hy
              rw [hkey] at this
              exact nodup_keys_eq hnd this hpmem
            have hstep2 : buildForChange pkgr prefixes s1 change marked = .ok s2 := by
              rw [← hkey, ← hy2]
              exact hstep
            exact hest s1 s2 hstep2
          · obtain ⟨l, hl, hpl⟩ := hP
            obtain ⟨r, hfold2, hcase⟩ := buildForChange_ok hstep
            have hld : (change, l) ∈ r.1.dependencies := by
              rw [innerFold_deps_eq hfold2]
              exact hl
            rcases hcase with ⟨_, rfl⟩ | ⟨_, rfl⟩
            · exact ⟨l, mem_mset_of_ne hld (fun hc => hkey hc.symm), hpl⟩
            · exact ⟨l, hld, hpl⟩
      exact hfinal

theorem deleted_marked_false_emitted_bare_witness :
    ("d", false) ∈ markedFor (Graph.mk [("d", [])]) [("d", true)] [] "d" true ∧
    Package.mk "d" "" ∈ (Packages.mk [] [Package.mk "d" ""] [Package.mk "d" ""]).changes := by
  have hrun : changedPackages (Packager.mk (fun _ => (Package.mk "" "", none))
      (fun _ => (Package.mk "" "", none)) (fun ip => .ok (Package.mk ip ip))
      (.ok (Graph.mk [])) (fun _ => []))
      [] [("d", [("d", false)])] =
      .ok (Packages.mk [] [Package.mk "d" ""] [Package.mk "d" ""]) := by
    simp [changedPackages, buildForChange, buildStep, hasPrefixIn, mset, sortPackages,
      List.mergeSort, except_ok_bind]
  have hthm := deleted_marked_false_emitted_bare (Graph.mk [("d", [])]) [("d", true)] []
    "d" true "d"
    (Packager.mk (fun _ => (Package.mk "" "", none)) (fun _ => (Package.mk "" "", none))
      (fun ip => .ok (Package.mk ip ip)) (.ok (Graph.mk [])) (fun _ => []))
    [] [("d", [("d", false)])] [("d", false)]
    (Packages.mk [] [Package.mk "d" ""] [Package.mk "d" ""])
  refine ⟨?_, ?_⟩
  · exact hthm.1 (by decide)
      ((traverseNode (Graph.mk [("d", [])]).graph "d" []).property.2.1) (by decide)
  · exact (hthm.2 (by decide) (by decide) (by decide) (by decide) hrun).1 rfl

theorem embedPhase_tests_eq (env : GTAEnv) (abs : String) :
    ∀ (files : List String) (st : ClassifyState),
      (embedPhase env abs files st).onlyTestsAffected = st.onlyTestsAffected ∧
      (embedPhase env abs files st).onlyTestPackagesChanged = st.onlyTestPackagesChanged := by
  have hinner : ∀ (ips : List String) (s : ClassifyState),
      (ips.foldl (fun st2 importPath =>
        { st2 with embeddedChanged := sinsert st2.embeddedChanged importPath,
                   changed := mset st2.changed importPath false }) s).onlyTestsAffected =
        s.onlyTestsAffected ∧
      (ips.foldl (fun st2 importPath =>
        { st2 with embeddedChanged := sinsert st2.embeddedChanged importPath,
                   changed := mset st2.changed importPath false }) s).onlyTestPackagesChanged =
        s.onlyTestPackagesChanged := by
    intro ips
    induction ips with
    | nil => intro s; exact ⟨rfl, rfl⟩
    | cons i t ih =>
      intro s
      rw [List.foldl_cons]
      exact ih _
  intro files
  unfold embedPhase
  induction files with
  | nil => intro st; exact ⟨rfl, rfl⟩
  | cons f t ih =>
    intro st
    rw [List.foldl_cons]
    obtain ⟨ia, ib⟩ := ih ((env.packager.embeddedBy (pathJoin abs f)).foldl
      (fun st2 importPath =>
        { st2 with embeddedChanged := sinsert st2.embeddedChanged importPath,
                   changed := mset st2.changed importPath false }) st)
    obtain ⟨ja, jb⟩ := hinner (env.packager.embeddedBy (pathJoin abs f)) st
    exact ⟨ia.trans ja, ib.trans jb⟩

theorem resolvePhase_success_marks
    (env : GTAEnv) (st : ClassifyState) (abs : String) (dir : Directory) (pkg : Package)
    (hres : env.packager.packageFromDir abs = (pkg, none))
    (hx : dir.dirExists = true ∨ hasGoFile dir.files = true)
    (hmark : hasGoFile dir.files = true ∨ abs ∈ st.onlyTestsAffected ∨
      pkg.importPath ∈ st.onlyTestPackagesChanged) :
    ∃ st2, resolvePhase env st abs dir = .ok st2 ∧
      st2.changed.lookup pkg.importPath = some false := by
  have hguard : ¬ (dir.dirExists = false ∧ hasGoFile dir.files = false) := by
    rcases hx with h | h
    · rintro ⟨h1, _⟩
      rw [h] at h1
      exact Bool.noConfusion h1
    · rintro ⟨_, h2⟩
      rw [h] at h2
      exact Bool.noConfusion h2
  by_cases hta : abs ∈ st.onlyTestsAffected
  · have hsm : (hasGoFile dir.files || decide (abs ∈ st.onlyTestsAffected) ||
        decide (pkg.importPath ∈
          (sinsert st.onlyTestPackagesChanged pkg.importPath))) = true := by
      simp [hta]
    refine ⟨{ st with
        onlyTestPackagesChanged := sinsert st.onlyTestPackagesChanged pkg.importPath,
        changed := mset st.changed pkg.importPath false }, ?_, lookup_mset_self _ _ _⟩
    unfold resolvePhase
    rw [if_neg hguard, hres]
    dsimp only
    rw [if_pos hta, if_pos hsm]
  · have hsm : (hasGoFile dir.files || decide (abs ∈ st.onlyTestsAffected) ||
        decide (pkg.importPath ∈ st.onlyTestPackagesChanged)) = true := by
      rcases hmark with h | h | h
      · simp [h]
      · exact absurd h hta
      · simp [h]
    refine ⟨{ st with changed := mset st.changed pkg.importPath false }, ?_,
      lookup_mset_self _ _ _⟩
    unfold resolvePhase
    rw [if_neg hguard, hres]
    dsimp only
    rw [if_neg hta, if_pos hsm]

/-- C1 amended: when the classifier handles a directory record whose
directory is not ignored, that still exists or has a changed Go file,
and whose resolution through PackageFromDir succeeds, the returned im-
port path is recorded with changed equal to false provided the record
has a changed Go file, or only test file names changed, or the
directory or package was already tallied as test only affected;
without one of these conditions the package is not marked at all. -/
theorem packageFromDir_success_marks
    (env : GTAEnv) (dirs : List (String × Directory)) (st : ClassifyState)
    (abs : String) (dir : Directory) (pkg : Package)
    (hign : isIgnoredByGo abs env.roots = false)
    (hres : env.packager.packageFromDir abs = (pkg, none))
    (hx : dir.dirExists = true ∨ hasGoFile dir.files = true)
    (hmark : hasGoFile dir.files = true ∨ hasOnlyTestFilenames dir.files = true ∨
      abs ∈ st.onlyTestsAffected ∨ pkg.importPath ∈ st.onlyTestPackagesChanged) :
    ∃ st2, processDir env dirs st abs dir = .ok st2 ∧
      st2.changed.lookup pkg.importPath = some false := by
  obtain ⟨hta_eq, htp_eq⟩ := embedPhase_tests_eq env abs dir.files st
  unfold processDir
  dsimp only
  rw [hign]
  simp only [Bool.false_eq_true, if_false]
  by_cases hot : hasOnlyTestFilenames dir.files = true
  · rw [if_pos hot]
    exact resolvePhase_success_marks env _ abs dir pkg hres hx
      (Or.inr (Or.inl (mem_sinsert_self _ _)))
  · rw [if_neg hot]
    apply resolvePhase_success_marks env _ abs dir pkg hres hx
    rcases hmark with h | h | h | h
    · exact Or.inl h
    · exact absurd h hot
    · refine Or.inr (Or.inl ?_)
      rw [hta_eq]
      exact h
    · refine Or.inr (Or.inr ?_)
      rw [htp_eq]
      exact h

theorem isIgnoredByGo_root_dir : isIgnoredByGo "/r" ["/r"] = false := by
  rw [isIgnoredByGo.eq_def]
  rw [if_pos (by decide)]

theorem isIgnoredByGo_pkg_dir : isIgnoredByGo "/r/pkg" ["/r"] = false := by
  rw [isIgnoredByGo.eq_def]
  rw [if_neg (by decide), dif_neg (by decide), if_neg (by decide), dif_neg (by decide)]
  rw [show filepathDir "/r/pkg" = "/r" from by decide]
  exact isIgnoredByGo_root_dir

/-- C1 counterexample: a directory record whose PackageFromDir call
succeeds but whose changed files contain no Go file and are not all
test files leaves the package unmarked, so a successful directory
resolution does not mark the package regardless of the file names. -/
theorem packageFromDir_success_not_always_marked :
    (GTAEnv.mk (Packager.mk
        (fun a => if a = "/r/pkg" then (Package.mk "pkg" "/r/pkg", none)
                  else (Package.mk "" "", some PkgDirError.otherError))
        (fun _ => (Package.mk "" "", some PkgDirError.otherError))
        (fun ip => .ok (Package.mk ip ip)) (.ok (Graph.mk [])) (fun _ => []))
      ["/r"] [] (fun _ => true)).packager.packageFromDir "/r/pkg" =
        (Package.mk "pkg" "/r/pkg", none) ∧
    classifyDirs (GTAEnv.mk (Packager.mk
        (fun a => if a = "/r/pkg" then (Package.mk "pkg" "/r/pkg", none)
                  else (Package.mk "" "", some PkgDirError.otherError))
        (fun _ => (Package.mk "" "", some PkgDirError.otherError))
        (fun ip => .ok (Package.mk ip ip)) (.ok (Graph.mk [])) (fun _ => []))
      ["/r"] [] (fun _ => true)) [("/r/pkg", Directory.mk true ["README.md"])] =
      .ok (ClassifyState.mk [] [] [] []) := by
  refine ⟨rfl, ?_⟩
  have hot : hasOnlyTestFilenames ["README.md"] = false := by decide
  have hgo : hasGoFile ["README.md"] = false := by decide
  simp [classifyDirs, processDir, embedPhase, resolvePhase, isIgnoredByGo_pkg_dir,
    hot, hgo, pathJoin, except_ok_bind]

theorem packageFromDir_success_marks_witness :
    ∃ st2, processDir (GTAEnv.mk (Packager.mk
        (fun a => if a = "/r/pkg" then (Package.mk "pkg" "/r/pkg", none)
                  else (Package.mk "" "", some PkgDirError.otherError))
        (fun _ => (Package.mk "" "", some PkgDirError.otherError))
        (fun ip => .ok (Package.mk ip ip)) (.ok (Graph.mk [])) (fun _ => []))
      ["/r"] [] (fun _ => true)) [] (ClassifyState.mk [] [] [] []) "/r/pkg"
        (Directory.mk true ["main.go"]) = .ok st2 ∧
      st2.changed.lookup "pkg" = some false :=
  packageFromDir_success_marks _ [] (ClassifyState.mk [] [] [] []) "/r/pkg"
    (Directory.mk true ["main.go"]) (Package.mk "pkg" "/r/pkg")
    isIgnoredByGo_pkg_dir rfl (Or.inl rfl) (Or.inl (by decide))
